import Mathlib

/-!
# c-vector: a shallow embedding of `vector.h`

The header implements a growable array as a family of C macros over a plain
`T *`.  The pointer is either `NULL` or points just behind a two-word header
`[size, capacity]` that lives in the same heap block as the elements.

Embedding choices:

* a handle is `Option (Block α)`: `none` is `NULL`, `some b` a live block;
* `size_t` values are natural numbers below `SIZE_MOD = 2 ^ 64`; every
  `size_t` computation of the source is reduced modulo `SIZE_MOD`;
* the element storage of a block is a list of slots, one per element the heap
  block has room for; a slot is `none` while its value is indeterminate
  (fresh `malloc`/`realloc` memory) and `some x` once `x` was stored;
* `malloc`/`realloc` are answered by a heap oracle telling whether a request
  for a given number of bytes succeeds;
* a failed `assert` and an access outside the heap block end the operation
  with a `Fault`;
* macro arguments are expanded textually: `v_erase` expands its index twice,
  around the update of the count, so `v_erase_expr` takes the index as an
  expression over the vector and `v_erase` is its instance for an index that
  is a value;
* `v_grow_traced` and `v_push_back_traced` are `v_grow` and `v_push_back` run
  against a heap that logs the calls made to it.
-/

namespace CVector

/-! ## The embedding -/

/-- Number of values of `size_t` (64-bit `size_t`). -/
def SIZE_MOD : Nat := 2 ^ 64

/-- The bytes of the header in front of the elements, `sizeof(size_t) * 2`. -/
def HEADER_BYTES : Nat := 8 * 2

/-- Ways an operation can end without producing a vector. -/
inductive Fault where
  /-- `assert(__p)` / `assert(__p2)` failed: the allocator returned `NULL`. -/
  | assert_failed
  /-- A load or store outside the heap block, or through `NULL`. -/
  | undefined_behaviour
  deriving DecidableEq

/-- Build-time parameters of one instantiation of the header: the
preprocessor symbols `LINEAR_GROWTH`, `GROWTH_FACTOR`, `MIN_CAPACITY`, and
`sizeof(*(vec))` for the element type in use. -/
structure Config where
  LINEAR_GROWTH : Bool
  GROWTH_FACTOR : Nat
  MIN_CAPACITY : Nat
  sizeof_elem : Nat
  deriving DecidableEq

/-- The configuration the header selects when neither `LINEAR_GROWTH` nor
`GROWTH_FACTOR` nor `MIN_CAPACITY` is defined by the user (lines 43-52). -/
def Config.multiplicative (esz : Nat) : Config :=
  { LINEAR_GROWTH := false, GROWTH_FACTOR := 2, MIN_CAPACITY := 8, sizeof_elem := esz }

/-- The configuration the header selects when only `LINEAR_GROWTH` is defined
(lines 43-52); `MIN_CAPACITY` is not used by the linear `v_push_back`. -/
def Config.linear (esz : Nat) : Config :=
  { LINEAR_GROWTH := true, GROWTH_FACTOR := 1, MIN_CAPACITY := 0, sizeof_elem := esz }

/-- A build with `LINEAR_GROWTH` and a user-defined `GROWTH_FACTOR` of `g`. -/
def Config.linear_by (g esz : Nat) : Config :=
  { LINEAR_GROWTH := true, GROWTH_FACTOR := g, MIN_CAPACITY := 0, sizeof_elem := esz }

/-- A live heap block: the two header words and the element slots. -/
structure Block (α : Type) where
  /-- Header word `((size_t *)(vec))[-2]`. -/
  size : Nat
  /-- Header word `((size_t *)(vec))[-1]`. -/
  capacity : Nat
  /-- Element slots of the heap block, `none` for an indeterminate value. -/
  data : List (Option α)
  /-- The header words are `size_t` values. -/
  size_lt : size < SIZE_MOD
  capacity_lt : capacity < SIZE_MOD

/-- A vector handle: `NULL` or a pointer to the elements of a live block. -/
abbrev Vec (α : Type) := Option (Block α)

/-- A heap oracle: whether `malloc`/`realloc` of that many bytes succeeds. -/
abbrev Heap := Nat → Bool

/-- Macro `v_set_capacity(vec, size)`. -/
def v_set_capacity {α : Type} (vec : Vec α) (size : Nat) : Vec α :=
  match vec with
  | none => none
  | some b =>
    some { b with capacity := size % SIZE_MOD, capacity_lt := Nat.mod_lt _ (by decide) }

/-- Macro `v_set_size(vec, size)`. -/
def v_set_size {α : Type} (vec : Vec α) (size : Nat) : Vec α :=
  match vec with
  | none => none
  | some b =>
    some { b with size := size % SIZE_MOD, size_lt := Nat.mod_lt _ (by decide) }

/-- Macro `v_capacity(vec)`. -/
def v_capacity {α : Type} (vec : Vec α) : Nat :=
  match vec with
  | none => 0
  | some b => b.capacity

/-- Macro `v_size(vec)`. -/
def v_size {α : Type} (vec : Vec α) : Nat :=
  match vec with
  | none => 0
  | some b => b.size

/-- Macro `v_empty(vec)`: `((vec) ? v_size(vec) == 0 : 0)`, read as a truth
value. -/
def v_empty {α : Type} (vec : Vec α) : Bool :=
  match vec with
  | none => false
  | some _ => v_size vec == 0

/-- The argument of `malloc`/`realloc` in `v_grow`:
`(count) * sizeof(*(vec)) + (sizeof(size_t) * 2)`, computed in `size_t`. -/
def alloc_bytes (cfg : Config) (count : Nat) : Nat :=
  (count * cfg.sizeof_elem + HEADER_BYTES) % SIZE_MOD

/-- Whole elements that fit behind the header in a heap block of `bytes`
bytes. -/
def alloc_slots (cfg : Config) (bytes : Nat) : Nat :=
  (bytes - HEADER_BYTES) / cfg.sizeof_elem

/-- Element slots after `realloc`: the contents are kept up to the smaller of
the old and the new size, new slots are indeterminate. -/
def realloc_data {α : Type} (data : List (Option α)) (slots : Nat) : List (Option α) :=
  data.take slots ++ List.replicate (slots - data.length) none

/-- Macro `v_grow(vec, count)` (lines 116-131).  `count` is a `size_t` value.
A block too small for its own header makes the header stores that follow
land outside the block. -/
def v_grow {α : Type} (cfg : Config) (heap : Heap) (vec : Vec α) (count : Nat) :
    Except Fault (Vec α) :=
  let bytes := alloc_bytes cfg count
  match vec with
  | none =>
    -- size_t *__p = malloc(...); assert(__p);
    if heap bytes = false then .error .assert_failed
    else if bytes < HEADER_BYTES then .error .undefined_behaviour
    else
      -- (vec) = (void *)(&__p[2]);
      let fresh : Vec α := some
        { size := 0, capacity := 0,
          data := List.replicate (alloc_slots cfg bytes) none,
          size_lt := by decide, capacity_lt := by decide }
      -- v_set_capacity((vec), (count)); v_set_size((vec), 0);
      .ok (v_set_size (v_set_capacity fresh count) 0)
  | some b =>
    -- size_t *__p2 = realloc(__p1, ...); assert(__p2);
    if heap bytes = false then .error .assert_failed
    else if bytes < HEADER_BYTES then .error .undefined_behaviour
    else
      -- (vec) = (void *)(&__p2[2]);
      let moved : Vec α := some { b with data := realloc_data b.data (alloc_slots cfg bytes) }
      -- v_set_capacity((vec), (count));
      .ok (v_set_capacity moved count)

/-- Macro `v_pop_back(vec)`: `v_set_size((vec), v_size(vec) - 1)`, the
subtraction being a `size_t` subtraction. -/
def v_pop_back {α : Type} (vec : Vec α) : Vec α :=
  v_set_size vec ((v_size vec + SIZE_MOD - 1) % SIZE_MOD)

/-- The load `(vec)[idx]` as an rvalue. -/
def v_load {α : Type} (vec : Vec α) (idx : Nat) : Except Fault (Option α) :=
  match vec with
  | none => .error .undefined_behaviour
  | some b =>
    if h : idx < b.data.length then .ok (b.data.get ⟨idx, h⟩)
    else .error .undefined_behaviour

/-- The store `(vec)[idx] = e` of a slot value `e`. -/
def v_store_slot {α : Type} (vec : Vec α) (idx : Nat) (e : Option α) : Except Fault (Vec α) :=
  match vec with
  | none => .error .undefined_behaviour
  | some b =>
    if idx < b.data.length then .ok (some { b with data := b.data.set idx e })
    else .error .undefined_behaviour

/-- The store `vec[idx] = (value)`. -/
def v_store {α : Type} (vec : Vec α) (idx : Nat) (value : α) : Except Fault (Vec α) :=
  v_store_slot vec idx (some value)

/-- The loop of `v_erase` (lines 164-166),
`for (__x = (i); __x < (__sz - 1); ++__x) (vec)[__x] = (vec)[__x + 1];`,
entered with `__x = x` and `n = (__sz - 1) - x` iterations still to run. -/
def v_erase_loop {α : Type} : Vec α → Nat → Nat → Except Fault (Vec α)
  | vec, _, 0 => .ok vec
  | vec, x, n + 1 =>
    match v_load vec (x + 1) with
    | .error f => .error f
    | .ok e =>
      match v_store_slot vec x e with
      | .error f => .error f
      | .ok vec1 => v_erase_loop vec1 (x + 1) n

/-- Macro `v_erase(vec, i)` (lines 157-169) for an index argument whose value
does not depend on the vector (a constant, or a variable set before the
call); `v_erase_expr` is the macro for an index expression that reads the
vector. -/
def v_erase {α : Type} (vec : Vec α) (i : Nat) : Except Fault (Vec α) :=
  match vec with
  | none => .ok vec
  | some _ =>
    let sz := v_size vec
    if i < sz then
      let vec1 := v_set_size vec ((sz + SIZE_MOD - 1) % SIZE_MOD)
      v_erase_loop vec1 i ((sz - 1) - i)
    else .ok vec

/-- The capacity `v_push_back` asks `v_grow` for, as a `size_t` value:
`!__cap ? __cap + 1 : __cap + GROWTH_FACTOR` under `LINEAR_GROWTH` (line 213),
`__cap ? __cap * GROWTH_FACTOR : MIN_CAPACITY` otherwise (lines 225-226). -/
def grow_request (cfg : Config) (cap : Nat) : Nat :=
  if cfg.LINEAR_GROWTH then
    (if cap = 0 then (cap + 1) % SIZE_MOD else (cap + cfg.GROWTH_FACTOR) % SIZE_MOD)
  else
    (if cap ≠ 0 then (cap * cfg.GROWTH_FACTOR) % SIZE_MOD else cfg.MIN_CAPACITY % SIZE_MOD)

/-- Macro `v_push_back(vec, value)`, both variants (lines 209-217 and
221-230); they differ only in the capacity asked for. -/
def v_push_back {α : Type} (cfg : Config) (heap : Heap) (vec : Vec α) (value : α) :
    Except Fault (Vec α) :=
  let cap := v_capacity vec
  let grown : Except Fault (Vec α) :=
    if cap ≤ v_size vec then v_grow cfg heap vec (grow_request cfg cap) else .ok vec
  match grown with
  | .error f => .error f
  | .ok vec1 =>
    match v_store vec1 (v_size vec1) value with
    | .error f => .error f
    | .ok vec2 => .ok (v_set_size vec2 ((v_size vec2 + 1) % SIZE_MOD))

/-- Macro `v_begin(vec)`: `(vec)`.  A pointer into the block is the index of
the slot it points to; `none` is `NULL`. -/
def v_begin {α : Type} (vec : Vec α) : Option Nat :=
  match vec with
  | none => none
  | some _ => some 0

/-- Macro `v_end(vec)`: `((vec) ? &((vec)[v_size(vec)]) : NULL)`. -/
def v_end {α : Type} (vec : Vec α) : Option Nat :=
  match vec with
  | none => none
  | some _ => some (v_size vec)

/-- The iterator loop of `example.c` (lines 34-37),
`for(it = v_begin(v); it != v_end(v); ++it)`, collecting `*it`; started with
`it = v_begin(v)`.  The outer `none` means the fuel ran out before `it`
reached `v_end(v)`. -/
def iterate {α : Type} (vec : Vec α) : Nat → Option Nat → Option (Except Fault (List (Option α)))
  | 0, _ => none
  | fuel + 1, it =>
    if it = v_end vec then some (.ok [])
    else
      match it with
      | none => some (.error .undefined_behaviour)
      | some k =>
        match v_load vec k with
        | .error f => some (.error f)
        | .ok e =>
          match iterate vec fuel (some (k + 1)) with
          | some (.ok es) => some (.ok (e :: es))
          | r => r

/-- The index loop of `example.c` (lines 43-45),
`for(i = 0; i < v_size(v); ++i)`, collecting `v[i]`; started with `i = 0`.
The outer `none` means the fuel ran out. -/
def index_loop {α : Type} (vec : Vec α) : Nat → Nat → Option (Except Fault (List (Option α)))
  | 0, _ => none
  | fuel + 1, i =>
    if i < v_size vec then
      match v_load vec i with
      | .error f => some (.error f)
      | .ok e =>
        match index_loop vec fuel (i + 1) with
        | some (.ok es) => some (.ok (e :: es))
        | r => r
    else some (.ok [])

/-- Consecutive statements `v_push_back(v, x0); v_push_back(v, x1); ...` as in
`example.c` (lines 18-20). -/
def push_all {α : Type} (cfg : Config) (heap : Heap) : List α → Vec α → Except Fault (Vec α)
  | [], vec => .ok vec
  | x :: xs, vec =>
    match v_push_back cfg heap vec x with
    | .error f => .error f
    | .ok vec1 => push_all cfg heap xs vec1

/-- The handles a program can hold after starting from `NULL` and running
`v_push_back`, `v_pop_back` (on a non-empty vector only) and `v_erase`
statements, each one having produced a vector. -/
inductive Reachable {α : Type} (cfg : Config) (heap : Heap) : Vec α → Prop where
  | null : Reachable cfg heap none
  | push_back {vec vec1 : Vec α} (x : α) :
      Reachable cfg heap vec → v_push_back cfg heap vec x = .ok vec1 → Reachable cfg heap vec1
  | pop_back {vec : Vec α} :
      Reachable cfg heap vec → 0 < v_size vec → Reachable cfg heap (v_pop_back vec)
  | erase {vec vec1 : Vec α} (i : Nat) :
      Reachable cfg heap vec → v_erase vec i = .ok vec1 → Reachable cfg heap vec1

/-- The element slots behind a handle (`NULL` has none). -/
def v_data {α : Type} (vec : Vec α) : List (Option α) :=
  match vec with
  | none => []
  | some b => b.data

/-- The data model of the specification: `count <= capacity`, and the heap
block holds exactly `capacity` elements.  `NULL` is well formed. -/
def WellFormed {α : Type} (vec : Vec α) : Prop :=
  v_size vec ≤ v_capacity vec ∧ (v_data vec).length = v_capacity vec

/-- The two default configurations of lines 43-52. -/
def Config.IsDefault (cfg : Config) : Prop :=
  (cfg.LINEAR_GROWTH = false ∧ cfg.GROWTH_FACTOR = 2 ∧ cfg.MIN_CAPACITY = 8) ∨
  (cfg.LINEAR_GROWTH = true ∧ cfg.GROWTH_FACTOR = 1)

/-- The capacity `v_push_back` asks for, in unbounded arithmetic. -/
def ideal_request (cfg : Config) (cap : Nat) : Nat :=
  if cfg.LINEAR_GROWTH then (if cap = 0 then cap + 1 else cap + cfg.GROWTH_FACTOR)
  else (if cap ≠ 0 then cap * cfg.GROWTH_FACTOR else cfg.MIN_CAPACITY)

/-- No `size_t` wrap-around in a `v_push_back` on `vec`: when it has to grow,
the byte count of the request, computed in unbounded arithmetic, is a
`size_t` value. -/
def NoWrap {α : Type} (cfg : Config) (vec : Vec α) : Prop :=
  v_capacity vec ≤ v_size vec →
    ideal_request cfg (v_capacity vec) * cfg.sizeof_elem + HEADER_BYTES < SIZE_MOD

/-- The allocator serves the request a `v_push_back` on `vec` makes, if it
makes one. -/
def GrowSucceeds {α : Type} (cfg : Config) (heap : Heap) (vec : Vec α) : Prop :=
  v_capacity vec ≤ v_size vec →
    heap (alloc_bytes cfg (grow_request cfg (v_capacity vec))) = true

/-- The handle after the statements of `example.c` (push 10, 20, 30, pop)
followed by `v_erase(v, 0)`. -/
def example_vec : Vec Int :=
  some ⟨1, 8, [some 20, some 20, some 30, none, none, none, none, none], by decide, by decide⟩

/-- A vector holds exactly the values `ys`: the count is their number, the
heap block has `capacity` slots, and the first slots hold the values. -/
def Holds {α : Type} (vec : Vec α) (ys : List α) : Prop :=
  v_size vec = ys.length ∧ WellFormed vec ∧ (v_data vec).take ys.length = ys.map some

/-- The index `v_size(vec)-1` of macro `v_back(vec)`, `vec[v_size(vec)-1]`;
the subtraction is a `size_t` subtraction. -/
def v_back_index {α : Type} (vec : Vec α) : Nat :=
  (v_size vec + SIZE_MOD - 1) % SIZE_MOD

/-- Macro `v_back(vec)` read as an rvalue. -/
def v_back {α : Type} (vec : Vec α) : Except Fault (Option α) :=
  v_load vec (v_back_index vec)

/-- Macro `v_back(vec)` used as an lvalue: the assignment
`v_back(vec) = (value)`. -/
def v_back_assign {α : Type} (vec : Vec α) (value : α) : Except Fault (Vec α) :=
  v_store vec (v_back_index vec) value

/-- A call to the allocator, with its byte count. -/
inductive HeapCall where
  /-- The `malloc` of line 119. -/
  | malloc (bytes : Nat)
  /-- The `realloc` of line 126. -/
  | realloc (bytes : Nat)
  deriving DecidableEq

/-- The configurations the specification permits: either growth mode, a
positive `GROWTH_FACTOR`, and a positive `MIN_CAPACITY` in multiplicative
mode. -/
def Config.IsPermitted (cfg : Config) : Prop :=
  1 ≤ cfg.GROWTH_FACTOR ∧ (cfg.LINEAR_GROWTH = false → 1 ≤ cfg.MIN_CAPACITY)

/-- The permitted configurations whose multiplicative mode really multiplies:
`GROWTH_FACTOR` at least 2 unless `LINEAR_GROWTH` is set. -/
def Config.Enlarges (cfg : Config) : Prop :=
  cfg.IsPermitted ∧ (cfg.LINEAR_GROWTH = false → 2 ≤ cfg.GROWTH_FACTOR)

/-- A multiplicative build with user-defined `GROWTH_FACTOR` and
`MIN_CAPACITY`. -/
def Config.multiplicative_by (g m esz : Nat) : Config :=
  { LINEAR_GROWTH := false, GROWTH_FACTOR := g, MIN_CAPACITY := m, sizeof_elem := esz }

/-- The byte count an allocator call asks for. -/
def HeapCall.bytes : HeapCall → Nat
  | .malloc n => n
  | .realloc n => n

/-- The capacity reached by `n` pushes from `NULL` in the default
multiplicative configuration: 0 before the first push, then `8 * 2 ^ k`
where either `k = 0` or half of it is below `n`. -/
def DoublingInv {α : Type} (vec : Vec α) (n : Nat) : Prop :=
  (n = 0 ∧ v_capacity vec = 0) ∨
  (0 < n ∧ ∃ k, v_capacity vec = 8 * 2 ^ k ∧ (k = 0 ∨ 8 * 2 ^ k < 2 * n))

/-- Macro `v_erase(vec, i)` (lines 157-169) for an index argument that is an
expression over the vector, `i v` being its value when the vector is `v`.
The macro expands `(i)` twice: in the test of line 161, and as the start of
the loop in line 164, which runs after line 162 has lowered the count. -/
def v_erase_expr {α : Type} (vec : Vec α) (i : Vec α → Nat) : Except Fault (Vec α) :=
  match vec with
  | none => .ok vec
  | some _ =>
    let sz := v_size vec
    if i vec < sz then
      let vec1 := v_set_size vec ((sz + SIZE_MOD - 1) % SIZE_MOD)
      v_erase_loop vec1 (i vec1) ((sz - 1) - i vec1)
    else .ok vec

/-- Macro `v_grow(vec, count)` (lines 116-131) run against a heap that keeps
a log of the calls made to it: the log grows by the `malloc` of line 119 or
the `realloc` of line 126, at the point of the call. -/
def v_grow_traced {α : Type} (cfg : Config) (heap : Heap) (log : List HeapCall) (vec : Vec α)
    (count : Nat) : List HeapCall × Except Fault (Vec α) :=
  let bytes := alloc_bytes cfg count
  match vec with
  | none =>
    -- size_t *__p = malloc(...); assert(__p);
    let log1 := log ++ [HeapCall.malloc bytes]
    if heap bytes = false then (log1, .error .assert_failed)
    else if bytes < HEADER_BYTES then (log1, .error .undefined_behaviour)
    else
      let fresh : Vec α := some
        { size := 0, capacity := 0,
          data := List.replicate (alloc_slots cfg bytes) none,
          size_lt := by decide, capacity_lt := by decide }
      (log1, .ok (v_set_size (v_set_capacity fresh count) 0))
  | some b =>
    -- size_t *__p2 = realloc(__p1, ...); assert(__p2);
    let log1 := log ++ [HeapCall.realloc bytes]
    if heap bytes = false then (log1, .error .assert_failed)
    else if bytes < HEADER_BYTES then (log1, .error .undefined_behaviour)
    else
      let moved : Vec α := some { b with data := realloc_data b.data (alloc_slots cfg bytes) }
      (log1, .ok (v_set_capacity moved count))

/-- Macro `v_push_back(vec, value)` (lines 209-217 and 221-230) run against
a heap that keeps a log of the calls made to it; the log is touched by the
`v_grow` under `if(__cap <= v_size(vec))` only. -/
def v_push_back_traced {α : Type} (cfg : Config) (heap : Heap) (log : List HeapCall)
    (vec : Vec α) (value : α) : List HeapCall × Except Fault (Vec α) :=
  let cap := v_capacity vec
  let grown : List HeapCall × Except Fault (Vec α) :=
    if cap ≤ v_size vec then v_grow_traced cfg heap log vec (grow_request cfg cap)
    else (log, .ok vec)
  match grown with
  | (log1, .error f) => (log1, .error f)
  | (log1, .ok vec1) =>
    match v_store vec1 (v_size vec1) value with
    | .error f => (log1, .error f)
    | .ok vec2 => (log1, .ok (v_set_size vec2 ((v_size vec2 + 1) % SIZE_MOD)))

/-! ## Supporting lemmas -/

theorem SIZE_MOD_pos : 0 < SIZE_MOD := by decide

theorem alloc_slots_exact (cfg : Config) (count : Nat) (hsz : 0 < cfg.sizeof_elem)
    (hnw : count * cfg.sizeof_elem + HEADER_BYTES < SIZE_MOD) :
    alloc_slots cfg (alloc_bytes cfg count) = count ∧
      HEADER_BYTES ≤ alloc_bytes cfg count := by
  unfold alloc_slots alloc_bytes
  rw [Nat.mod_eq_of_lt hnw]
  constructor
  · rw [Nat.add_sub_cancel]; exact Nat.mul_div_cancel _ hsz
  · omega

theorem count_lt_of_bytes (cfg : Config) (count : Nat) (hsz : 0 < cfg.sizeof_elem)
    (hnw : count * cfg.sizeof_elem + HEADER_BYTES < SIZE_MOD) : count < SIZE_MOD := by
  have : count * 1 ≤ count * cfg.sizeof_elem := Nat.mul_le_mul_left _ hsz
  omega

theorem length_realloc_data {α : Type} (data : List (Option α)) (slots : Nat) :
    (realloc_data data slots).length = slots := by
  unfold realloc_data
  simp only [List.length_append, List.length_take, List.length_replicate]
  omega

theorem realloc_data_getElem? {α : Type} (data : List (Option α)) (slots i : Nat)
    (hi : i < data.length) (hs : i < slots) : (realloc_data data slots)[i]? = data[i]? := by
  unfold realloc_data
  rw [List.getElem?_append_left (by simp; omega)]
  rw [List.getElem?_take]
  simp [hs]

theorem realloc_data_self {α : Type} (data : List (Option α)) :
    realloc_data data data.length = data := by
  unfold realloc_data
  simp

/-- A `v_grow` that is served and does not wrap: the handle is live, the
count is kept, the capacity is the one asked for, the slots are reallocated. -/
theorem v_grow_ok {α : Type} (cfg : Config) (heap : Heap) (vec : Vec α) (count : Nat)
    (hsz : 0 < cfg.sizeof_elem)
    (hnw : count * cfg.sizeof_elem + HEADER_BYTES < SIZE_MOD)
    (hheap : heap (alloc_bytes cfg count) = true) :
    ∃ b, v_grow cfg heap vec count = .ok (some b) ∧ b.size = v_size vec ∧
      b.capacity = count ∧ b.data = realloc_data (v_data vec) count := by
  obtain ⟨hslots, hhdr⟩ := alloc_slots_exact cfg count hsz hnw
  have hlt := count_lt_of_bytes cfg count hsz hnw
  cases vec with
  | none =>
    simp only [v_grow, hheap, Nat.not_lt.mpr hhdr, v_set_size, v_set_capacity]
    refine ⟨_, rfl, ?_, ?_, ?_⟩
    · simp [v_size]
    · simp [Nat.mod_eq_of_lt hlt]
    · simp [hslots, v_data, realloc_data]
  | some b0 =>
    simp only [v_grow, hheap, Nat.not_lt.mpr hhdr, v_set_size, v_set_capacity]
    refine ⟨_, rfl, ?_, ?_, ?_⟩
    · simp [v_size]
    · simp [Nat.mod_eq_of_lt hlt]
    · simp [hslots, v_data]

@[simp]
theorem v_size_some {α : Type} (b : Block α) : v_size (some b) = b.size := rfl

@[simp]
theorem v_capacity_some {α : Type} (b : Block α) :
    v_capacity (some b) = b.capacity := rfl

@[simp]
theorem v_data_some {α : Type} (b : Block α) : v_data (some b) = b.data := rfl

@[simp]
theorem v_size_none {α : Type} : v_size (none : Vec α) = 0 := rfl

@[simp]
theorem v_capacity_none {α : Type} : v_capacity (none : Vec α) = 0 := rfl

@[simp]
theorem v_data_none {α : Type} : v_data (none : Vec α) = [] := rfl

/-- An in-range store followed by the count update of `v_push_back`. -/
theorem store_then_count {α : Type} (b : Block α) (x : α) (hidx : b.size < b.data.length)
    (hwrap : b.size + 1 < SIZE_MOD) :
    ∃ b2, (match v_store (some b) (v_size (some b)) x with
        | .error f => (Except.error f : Except Fault (Vec α))
        | .ok vec2 => .ok (v_set_size vec2 ((v_size vec2 + 1) % SIZE_MOD))) = .ok (some b2) ∧
      b2.size = b.size + 1 ∧ b2.capacity = b.capacity ∧
      b2.data = b.data.set b.size (some x) := by
  simp only [v_store, v_store_slot, v_size_some, hidx, if_true, v_set_size]
  refine ⟨_, rfl, ?_, rfl, rfl⟩
  simp [Nat.mod_eq_of_lt hwrap]

theorem grow_request_eq_ideal (cfg : Config) (cap : Nat)
    (h : ideal_request cfg cap < SIZE_MOD) : grow_request cfg cap = ideal_request cfg cap := by
  unfold grow_request ideal_request at *
  split_ifs at * <;> exact Nat.mod_eq_of_lt h

/-- A `v_push_back` on a well-formed vector that is served, does not wrap and
asks for more than it has: the resulting block, field by field. -/
theorem v_push_back_ok {α : Type} (cfg : Config) (heap : Heap) (vec : Vec α) (x : α)
    (hwf : WellFormed vec) (hsz : 0 < cfg.sizeof_elem) (hnw : NoWrap cfg vec)
    (hheap : GrowSucceeds cfg heap vec)
    (hmore : v_capacity vec ≤ v_size vec →
      v_capacity vec < ideal_request cfg (v_capacity vec)) :
    ∃ b, v_push_back cfg heap vec x = .ok (some b) ∧ b.size = v_size vec + 1 ∧
      b.capacity = (if v_capacity vec ≤ v_size vec then ideal_request cfg (v_capacity vec)
        else v_capacity vec) ∧
      b.data = (realloc_data (v_data vec) b.capacity).set (v_size vec) (some x) := by
  obtain ⟨hle, hlen⟩ := hwf
  by_cases hc : v_capacity vec ≤ v_size vec
  · have hnw1 := hnw hc
    have hlt := count_lt_of_bytes cfg _ hsz hnw1
    have hreq := grow_request_eq_ideal cfg _ hlt
    have hheap1 := hheap hc
    rw [hreq] at hheap1
    obtain ⟨b1, hg, hs1, hc1, hd1⟩ :=
      v_grow_ok cfg heap vec (ideal_request cfg (v_capacity vec)) hsz hnw1 hheap1
    have hmore1 := hmore hc
    have hidx : b1.size < b1.data.length := by
      rw [hd1, length_realloc_data, hs1]; omega
    obtain ⟨b2, h2, hs2, hc2, hd2⟩ := store_then_count b1 x hidx (by omega)
    refine ⟨b2, ?_, ?_, ?_, ?_⟩
    · simp only [v_push_back, if_pos hc, hreq, hg]
      exact h2
    · omega
    · rw [if_pos hc]; omega
    · rw [hd2, hd1, hc2, hc1, hs1]
  · cases vec with
    | none => simp at hc
    | some b =>
      simp only [v_capacity_some, v_size_some, v_data_some] at hle hlen hc ⊢
      have hcap := b.capacity_lt
      obtain ⟨b2, h2, hs2, hc2, hd2⟩ := store_then_count b x (by omega) (by omega)
      refine ⟨b2, ?_, hs2, ?_, ?_⟩
      · simp only [v_push_back, v_capacity_some, v_size_some, if_neg hc]
        exact h2
      · rw [if_neg hc]; exact hc2
      · rw [hd2, hc2, ← hlen, realloc_data_self]

/-- What a `v_grow` that returns has done. -/
theorem v_grow_inv {α : Type} (cfg : Config) (heap : Heap) (vec vec1 : Vec α) (count : Nat)
    (h : v_grow cfg heap vec count = .ok vec1) :
    ∃ b1, vec1 = some b1 ∧ b1.size = v_size vec ∧ b1.capacity = count % SIZE_MOD ∧
      b1.data = realloc_data (v_data vec) (alloc_slots cfg (alloc_bytes cfg count)) ∧
      heap (alloc_bytes cfg count) = true ∧ HEADER_BYTES ≤ alloc_bytes cfg count := by
  cases hh : heap (alloc_bytes cfg count) with
  | false => cases vec <;> simp [v_grow, hh] at h
  | true =>
    by_cases hb : alloc_bytes cfg count < HEADER_BYTES
    · cases vec <;> simp [v_grow, hh, hb] at h
    · cases vec with
      | none =>
        simp only [v_grow, hh, hb, v_set_size, v_set_capacity] at h
        simp only [Bool.true_eq_false, if_false, Except.ok.injEq] at h
        subst h
        exact ⟨_, rfl, by simp, rfl, by simp [realloc_data], rfl, Nat.le_of_not_lt hb⟩
      | some b =>
        simp only [v_grow, hh, hb, v_set_capacity] at h
        simp only [Bool.true_eq_false, if_false, Except.ok.injEq] at h
        subst h
        exact ⟨_, rfl, rfl, rfl, rfl, rfl, Nat.le_of_not_lt hb⟩

/-- What a `v_push_back` that returns has done: the vector it stored into
(the grown one when `capacity <= size`, the old one otherwise) had room at
index `size`, and the result differs from it in that slot and the count. -/
theorem v_push_back_inv {α : Type} (cfg : Config) (heap : Heap) (vec vec2 : Vec α) (x : α)
    (h : v_push_back cfg heap vec x = .ok vec2) :
    ∃ b1 b2, (if v_capacity vec ≤ v_size vec
          then v_grow cfg heap vec (grow_request cfg (v_capacity vec))
          else .ok vec) = .ok (some b1) ∧
      vec2 = some b2 ∧ b1.size < b1.data.length ∧
      b2.size = (b1.size + 1) % SIZE_MOD ∧ b2.capacity = b1.capacity ∧
      b2.data = b1.data.set b1.size (some x) := by
  simp only [v_push_back] at h
  generalize hg : (if v_capacity vec ≤ v_size vec
          then v_grow cfg heap vec (grow_request cfg (v_capacity vec))
          else .ok vec) = grown at h
  cases grown with
  | error f => simp at h
  | ok vec1 =>
    cases vec1 with
    | none => simp [v_store, v_store_slot] at h
    | some b1 =>
      by_cases hidx : b1.size < b1.data.length
      · simp only [v_store, v_store_slot, v_size_some, hidx, if_true, v_set_size,
          Except.ok.injEq] at h
        subst h
        exact ⟨b1, _, rfl, rfl, hidx, by simp, rfl, rfl⟩
      · simp [v_store, v_store_slot, hidx] at h

theorem grow_request_lt (cfg : Config) (cap : Nat) : grow_request cfg cap < SIZE_MOD := by
  unfold grow_request
  split_ifs <;> exact Nat.mod_lt _ SIZE_MOD_pos

theorem alloc_slots_le (cfg : Config) (count : Nat) :
    alloc_slots cfg (alloc_bytes cfg count) ≤ count := by
  unfold alloc_slots alloc_bytes
  rcases Nat.eq_zero_or_pos cfg.sizeof_elem with h0 | hpos
  · rw [h0, Nat.div_zero]; exact Nat.zero_le _
  · apply Nat.div_le_of_le_mul
    have := Nat.mod_le (count * cfg.sizeof_elem + HEADER_BYTES) SIZE_MOD
    rw [Nat.mul_comm cfg.sizeof_elem count]
    omega

/-- Every `v_push_back` that returns leaves `size <= capacity`, whatever the
vector it started from. -/
theorem v_push_back_size_le {α : Type} (cfg : Config) (heap : Heap) (vec vec2 : Vec α) (x : α)
    (h : v_push_back cfg heap vec x = .ok vec2) : v_size vec2 ≤ v_capacity vec2 := by
  obtain ⟨b1, b2, hg, rfl, hidx, hs2, hc2, -⟩ := v_push_back_inv cfg heap vec vec2 x h
  have hmod : (b1.size + 1) % SIZE_MOD ≤ b1.size + 1 := Nat.mod_le _ _
  simp only [v_size_some, v_capacity_some]
  by_cases hc : v_capacity vec ≤ v_size vec
  · rw [if_pos hc] at hg
    obtain ⟨b, hb, -, hcap, hdata, -, -⟩ := v_grow_inv cfg heap vec _ _ hg
    cases hb
    have hlen : b1.data.length ≤ b1.capacity := by
      rw [hdata, length_realloc_data, hcap, Nat.mod_eq_of_lt (grow_request_lt cfg _)]
      exact alloc_slots_le cfg _
    omega
  · rw [if_neg hc] at hg
    cases hg
    simp only [v_size_some, v_capacity_some] at hc
    omega

/-- The loop of `v_erase` touches neither header word. -/
theorem v_erase_loop_header {α : Type} (n : Nat) :
    ∀ (vec vec1 : Vec α) (x : Nat), v_erase_loop vec x n = .ok vec1 →
      v_size vec1 = v_size vec ∧ v_capacity vec1 = v_capacity vec := by
  induction n with
  | zero =>
    intro vec vec1 x h
    simp only [v_erase_loop, Except.ok.injEq] at h
    subst h
    exact ⟨rfl, rfl⟩
  | succ n ih =>
    intro vec vec1 x h
    cases vec with
    | none => simp [v_erase_loop, v_load] at h
    | some b =>
      by_cases h1 : x + 1 < b.data.length
      · have h0 : x < b.data.length := by omega
        simp only [v_erase_loop, v_load, h1, dif_pos, v_store_slot, h0, if_true] at h
        obtain ⟨hs, hc⟩ := ih _ _ _ h
        exact ⟨hs, hc⟩
      · simp [v_erase_loop, v_load, h1] at h

/-- The loop of `v_erase` run inside the heap block: it returns, and slot `j`
of the result holds the old slot `j + 1` for `x <= j < x + n` and the old slot
`j` elsewhere. -/
theorem v_erase_loop_ok {α : Type} (n : Nat) :
    ∀ (b : Block α) (x : Nat), x + n < b.data.length →
      ∃ b1, v_erase_loop (some b) x n = .ok (some b1) ∧ b1.size = b.size ∧
        b1.capacity = b.capacity ∧ b1.data.length = b.data.length ∧
        ∀ j, b1.data[j]? = if x ≤ j ∧ j < x + n then b.data[j + 1]? else b.data[j]? := by
  induction n with
  | zero =>
    intro b x _
    refine ⟨b, rfl, rfl, rfl, rfl, ?_⟩
    intro j
    have : ¬ (x ≤ j ∧ j < x + 0) := by omega
    rw [if_neg this]
  | succ n ih =>
    intro b x hx
    have h1 : x + 1 < b.data.length := by omega
    have h0 : x < b.data.length := by omega
    simp only [v_erase_loop, v_load, h1, dif_pos, v_store_slot, h0, if_true]
    obtain ⟨b1, hrun, hs, hc, hl, hj⟩ :=
      ih { b with data := b.data.set x (b.data.get ⟨x + 1, h1⟩) } (x + 1)
        (by simp only [List.length_set]; omega)
    refine ⟨b1, hrun, hs, hc, by simpa using hl, ?_⟩
    intro j
    rw [hj j]
    simp only [List.getElem?_set, List.get_eq_getElem]
    by_cases hjx : j = x
    · subst hjx
      have : ¬ (j + 1 ≤ j ∧ j < j + 1 + n) := by omega
      rw [if_neg this]
      have : j ≤ j ∧ j < j + (n + 1) := by omega
      rw [if_pos this]
      simp [h0, List.getElem?_eq_getElem h1]
    · by_cases hin : x + 1 ≤ j ∧ j < x + 1 + n
      · have : x ≤ j ∧ j < x + (n + 1) := by omega
        rw [if_pos hin, if_pos this]
        have : ¬ x = j + 1 := by omega
        simp [this]
      · have : ¬ (x ≤ j ∧ j < x + (n + 1)) := by omega
        rw [if_neg hin, if_neg this]
        have : ¬ x = j := fun e => hjx e.symm
        simp [this]

/-- A `v_push_back` into spare capacity: no allocator call, the value goes to
slot `size`, the count goes up by one. -/
theorem v_push_back_room {α : Type} (cfg : Config) (heap : Heap) (b : Block α) (x : α)
    (hroom : b.size < b.capacity) (hlen : b.capacity ≤ b.data.length) :
    ∃ b2, v_push_back cfg heap (some b) x = .ok (some b2) ∧ b2.size = b.size + 1 ∧
      b2.capacity = b.capacity ∧ b2.data = b.data.set b.size (some x) := by
  have hcap := b.capacity_lt
  have hc : ¬ b.capacity ≤ b.size := by omega
  obtain ⟨b2, h2, hs2, hc2, hd2⟩ := store_then_count b x (by omega) (by omega)
  refine ⟨b2, ?_, hs2, hc2, hd2⟩
  simp only [v_push_back, v_capacity_some, v_size_some, if_neg hc]
  exact h2

/-- A `v_pop_back` on a non-empty vector only lowers the count word. -/
theorem v_pop_back_some {α : Type} (b : Block α) (hne : 0 < b.size) :
    ∃ b1, v_pop_back (some b) = some b1 ∧ b1.size = b.size - 1 ∧
      b1.capacity = b.capacity ∧ b1.data = b.data := by
  have hlt := b.size_lt
  refine ⟨_, rfl, ?_, rfl, rfl⟩
  simp only [v_size_some, Nat.mod_mod]
  have e : b.size + SIZE_MOD - 1 = (b.size - 1) + SIZE_MOD := by omega
  rw [e, Nat.add_mod_right]
  apply Nat.mod_eq_of_lt
  omega

/-- Under a default configuration a growing `v_push_back` asks for more than
the vector has. -/
theorem ideal_request_gt (cfg : Config) (hcfg : cfg.IsDefault) (cap : Nat) :
    cap < ideal_request cfg cap := by
  unfold ideal_request
  rcases hcfg with ⟨hl, hg, hm⟩ | ⟨hl, hg⟩
  · rw [hl, hg, hm]
    simp only [Bool.false_eq_true, if_false]
    split_ifs <;> omega
  · rw [hl, hg]
    simp only [if_true]
    split_ifs <;> omega

/-- The slots of the block `v_push_back_ok` describes, read one by one. -/
theorem pushed_slots {α : Type} (data : List (Option α)) (cap sz : Nat) (x : α)
    (hsz : sz < cap) (hlen : sz ≤ data.length) :
    ((realloc_data data cap).set sz (some x)).length = cap ∧
      ((realloc_data data cap).set sz (some x))[sz]? = some (some x) ∧
      ∀ i, i < sz → ((realloc_data data cap).set sz (some x))[i]? = data[i]? := by
  refine ⟨by simp [length_realloc_data], ?_, ?_⟩
  · simp [List.getElem?_set, length_realloc_data, hsz]
  · intro i hi
    have hne : ¬ sz = i := by omega
    rw [List.getElem?_set, if_neg hne]
    exact realloc_data_getElem? data cap i (by omega) (by omega)

@[simp]
theorem v_size_set_size {α : Type} (b : Block α) (n : Nat) :
    v_size (v_set_size (some b) n) = n % SIZE_MOD := rfl

@[simp]
theorem v_capacity_set_size {α : Type} (vec : Vec α) (n : Nat) :
    v_capacity (v_set_size vec n) = v_capacity vec := by
  cases vec <;> rfl

@[simp]
theorem v_data_set_size {α : Type} (vec : Vec α) (n : Nat) :
    v_data (v_set_size vec n) = v_data vec := by
  cases vec <;> rfl

/-- The `size_t` subtraction `n - 1` of a non-zero `n`. -/
theorem size_t_pred (n : Nat) (h0 : 0 < n) (h : n < SIZE_MOD) :
    (n + SIZE_MOD - 1) % SIZE_MOD = n - 1 := by
  have e : n + SIZE_MOD - 1 = (n - 1) + SIZE_MOD := by omega
  rw [e, Nat.add_mod_right]
  apply Nat.mod_eq_of_lt
  omega

theorem example_vec_reachable :
    Reachable (Config.multiplicative 4) (fun _ => true) example_vec :=
  have r1 : Reachable (Config.multiplicative 4) (fun _ => true)
      (some ⟨1, 8, [some 10, none, none, none, none, none, none, none],
        by decide, by decide⟩ : Vec Int) :=
    Reachable.push_back 10 Reachable.null rfl
  have r2 : Reachable (Config.multiplicative 4) (fun _ => true)
      (some ⟨2, 8, [some 10, some 20, none, none, none, none, none, none],
        by decide, by decide⟩ : Vec Int) :=
    Reachable.push_back 20 r1 rfl
  have r3 : Reachable (Config.multiplicative 4) (fun _ => true)
      (some ⟨3, 8, [some 10, some 20, some 30, none, none, none, none, none],
        by decide, by decide⟩ : Vec Int) :=
    Reachable.push_back 30 r2 rfl
  have r4 : Reachable (Config.multiplicative 4) (fun _ => true)
      (some ⟨2, 8, [some 10, some 20, some 30, none, none, none, none, none],
        by decide, by decide⟩ : Vec Int) :=
    Reachable.pop_back r3 (by decide)
  Reachable.erase 0 r4 rfl

/-- On a live block `v_empty` is the test `size == 0`. -/
theorem v_empty_some {α : Type} (b : Block α) :
    v_empty (some b) = true ↔ v_size (some b) = 0 := by
  simp [v_empty]

theorem ideal_request_le (cfg : Config) (hcfg : cfg.IsDefault) (cap : Nat) :
    ideal_request cfg cap ≤ 2 * cap + 8 := by
  unfold ideal_request
  rcases hcfg with ⟨hl, hg, hm⟩ | ⟨hl, hg⟩
  · rw [hl, hg, hm]
    simp only [Bool.false_eq_true, if_false]
    split_ifs <;> omega
  · rw [hl, hg]
    simp only [if_true]
    split_ifs <;> omega

/-- One more push on a vector holding `ys`. -/
theorem v_push_back_holds {α : Type} (cfg : Config) (heap : Heap) (vec : Vec α) (ys : List α)
    (x : α) (hcfg : cfg.IsDefault) (hsz : 0 < cfg.sizeof_elem) (hheap : ∀ n, heap n = true)
    (hnw : (2 * ys.length + 8) * cfg.sizeof_elem + HEADER_BYTES < SIZE_MOD)
    (hv : Holds vec ys) :
    ∃ vec1, v_push_back cfg heap vec x = .ok vec1 ∧ Holds vec1 (ys ++ [x]) := by
  obtain ⟨hsize, hwf, htake⟩ := hv
  have hgt := ideal_request_gt cfg hcfg (v_capacity vec)
  have hnw1 : NoWrap cfg vec := by
    intro hfull
    have hcap : v_capacity vec ≤ ys.length := by omega
    have h1 := ideal_request_le cfg hcfg (v_capacity vec)
    have h2 : ideal_request cfg (v_capacity vec) * cfg.sizeof_elem ≤
        (2 * ys.length + 8) * cfg.sizeof_elem := Nat.mul_le_mul_right _ (by omega)
    omega
  obtain ⟨b, hb, hs, hc, hd⟩ := v_push_back_ok cfg heap vec x hwf hsz hnw1
    (fun _ => hheap _) (fun _ => hgt)
  have hle := hwf.1
  have hlen := hwf.2
  have hroom : v_size vec < b.capacity := by
    rw [hc]; split_ifs <;> omega
  obtain ⟨h0, h1, h2⟩ := pushed_slots (v_data vec) b.capacity (v_size vec) x hroom (by omega)
  rw [← hd] at h0 h1 h2
  refine ⟨some b, hb, ?_, ⟨?_, ?_⟩, ?_⟩
  · simp only [v_size_some, List.length_append, List.length_singleton]; omega
  · simp only [v_size_some, v_capacity_some]; omega
  · simp only [v_data_some, v_capacity_some]; exact h0
  · simp only [v_data_some, List.length_append, List.length_singleton, List.map_append,
      List.map_cons, List.map_nil]
    rw [List.take_succ, ← hsize, h1, ← htake, ← hsize]
    congr 1
    apply List.ext_getElem?
    intro j
    rw [List.getElem?_take, List.getElem?_take]
    split_ifs with hj
    · exact h2 j hj
    · rfl

/-- Pushing `xs` one after the other on a vector holding `ys`. -/
theorem push_all_holds {α : Type} (cfg : Config) (heap : Heap) (hcfg : cfg.IsDefault)
    (hsz : 0 < cfg.sizeof_elem) (hheap : ∀ n, heap n = true) (xs : List α) :
    ∀ (vec : Vec α) (ys : List α),
      (2 * (ys.length + xs.length) + 8) * cfg.sizeof_elem + HEADER_BYTES < SIZE_MOD →
      Holds vec ys → ∃ vec1, push_all cfg heap xs vec = .ok vec1 ∧ Holds vec1 (ys ++ xs) := by
  induction xs with
  | nil =>
    intro vec ys _ hv
    exact ⟨vec, rfl, by simpa using hv⟩
  | cons x xs ih =>
    intro vec ys hnw hv
    have hmono : (2 * ys.length + 8) * cfg.sizeof_elem ≤
        (2 * (ys.length + (x :: xs).length) + 8) * cfg.sizeof_elem :=
      Nat.mul_le_mul_right _ (by omega)
    obtain ⟨vec1, h1, hv1⟩ := v_push_back_holds cfg heap vec ys x hcfg hsz hheap
      (by omega) hv
    obtain ⟨vec2, h2, hv2⟩ := ih vec1 (ys ++ [x])
      (by
        have e : (ys ++ [x]).length + xs.length = ys.length + (x :: xs).length := by
          simp only [List.length_append, List.length_cons, List.length_nil]; omega
        rw [e]; exact hnw)
      hv1
    refine ⟨vec2, ?_, by simpa using hv2⟩
    simp only [push_all, h1]
    exact h2

/-- The iterator loop started at slot `k` with `m` slots to go and fuel for
more than `m` rounds reads those `m` slots and stops. -/
theorem iterate_ok {α : Type} (b : Block α) (hin : b.size ≤ b.data.length) (m : Nat) :
    ∀ (k fuel : Nat), k + m = b.size → m < fuel →
      iterate (some b) fuel (some k) = some (.ok ((b.data.drop k).take m)) := by
  induction m with
  | zero =>
    intro k fuel hk hf
    obtain ⟨f, rfl⟩ : ∃ f, fuel = f + 1 := ⟨fuel - 1, by omega⟩
    have : (some k : Option Nat) = v_end (some b) := by
      simp only [v_end, v_size_some]; congr 1
    simp only [iterate, this, if_true, List.take_zero]
  | succ m ih =>
    intro k fuel hk hf
    obtain ⟨f, rfl⟩ : ∃ f, fuel = f + 1 := ⟨fuel - 1, by omega⟩
    have hne : ¬ (some k : Option Nat) = v_end (some b) := by
      simp only [v_end, v_size_some, Option.some.injEq]; omega
    have hk1 : k < b.data.length := by omega
    simp only [iterate, hne, if_false, v_load, hk1, dif_pos]
    rw [ih (k + 1) f (by omega) (by omega)]
    simp only [List.get_eq_getElem]
    rw [List.drop_eq_getElem_cons hk1, List.take_succ_cons]

/-- The index loop, likewise. -/
theorem index_loop_ok {α : Type} (b : Block α) (hin : b.size ≤ b.data.length) (m : Nat) :
    ∀ (k fuel : Nat), k + m = b.size → m < fuel →
      index_loop (some b) fuel k = some (.ok ((b.data.drop k).take m)) := by
  induction m with
  | zero =>
    intro k fuel hk hf
    obtain ⟨f, rfl⟩ : ∃ f, fuel = f + 1 := ⟨fuel - 1, by omega⟩
    have : ¬ k < b.size := by omega
    simp only [index_loop, v_size_some, this, if_false, List.take_zero]
  | succ m ih =>
    intro k fuel hk hf
    obtain ⟨f, rfl⟩ : ∃ f, fuel = f + 1 := ⟨fuel - 1, by omega⟩
    have hlt : k < b.size := by omega
    have hk1 : k < b.data.length := by omega
    simp only [index_loop, v_size_some, hlt, if_true, v_load, hk1, dif_pos]
    rw [ih (k + 1) f (by omega) (by omega)]
    simp only [List.get_eq_getElem]
    rw [List.drop_eq_getElem_cons hk1, List.take_succ_cons]

/-- Both loops of `example.c` over a well-formed vector read the first
`size` slots in index order. -/
theorem loops_read_slots {α : Type} (vec : Vec α) (hwf : WellFormed vec) (fuel : Nat)
    (hf : v_size vec < fuel) :
    iterate vec fuel (v_begin vec) = some (.ok ((v_data vec).take (v_size vec))) ∧
      index_loop vec fuel 0 = some (.ok ((v_data vec).take (v_size vec))) := by
  obtain ⟨f, rfl⟩ : ∃ f, fuel = f + 1 := ⟨fuel - 1, by omega⟩
  cases vec with
  | none => exact ⟨rfl, rfl⟩
  | some b =>
    obtain ⟨hle, hlen⟩ := hwf
    simp only [v_size_some, v_capacity_some, v_data_some] at hle hlen hf ⊢
    have hin : b.size ≤ b.data.length := by omega
    exact ⟨iterate_ok b hin b.size 0 (f + 1) (by omega) hf,
      index_loop_ok b hin b.size 0 (f + 1) (by omega) hf⟩

/-- On a non-empty live block the index of `v_back` is `size - 1`. -/
theorem v_back_index_some {α : Type} (b : Block α) (hne : 0 < b.size) :
    v_back_index (some b) = b.size - 1 :=
  size_t_pred b.size hne b.size_lt

/-- A load from a slot of the heap block returns the slot. -/
theorem v_load_some {α : Type} (b : Block α) (i : Nat) (e : Option α)
    (h : b.data[i]? = some e) : v_load (some b) i = .ok e := by
  obtain ⟨hi, he⟩ := List.getElem?_eq_some.mp h
  simp only [v_load, hi, dif_pos, List.get_eq_getElem, he]

/-- A store into a slot of the heap block changes that slot only. -/
theorem v_store_some {α : Type} (b : Block α) (i : Nat) (y : α) (hi : i < b.data.length) :
    ∃ b1, v_store (some b) i y = .ok (some b1) ∧ b1.size = b.size ∧
      b1.capacity = b.capacity ∧ b1.data = b.data.set i (some y) := by
  simp only [v_store, v_store_slot, hi, if_true]
  exact ⟨_, rfl, rfl, rfl, rfl⟩

/-- Under a configuration that enlarges, a growing `v_push_back` asks for
more than the vector has. -/
theorem ideal_request_gt_of_enlarges (cfg : Config) (hcfg : cfg.Enlarges) (cap : Nat) :
    cap < ideal_request cfg cap := by
  obtain ⟨⟨hg, hm⟩, h2⟩ := hcfg
  unfold ideal_request
  cases hl : cfg.LINEAR_GROWTH with
  | true =>
    simp only [if_true]
    split_ifs <;> omega
  | false =>
    have hm1 := hm hl
    have hg2 := h2 hl
    simp only [Bool.false_eq_true, if_false]
    split_ifs with h0
    · have : cap * 2 ≤ cap * cfg.GROWTH_FACTOR := Nat.mul_le_mul_left _ hg2
      omega
    · omega

/-- The outcome of `v_grow` depends on the allocator through its answer to
the one request only. -/
theorem v_grow_congr {α : Type} (cfg : Config) (heap heap1 : Heap) (vec : Vec α) (count : Nat)
    (h : heap1 (alloc_bytes cfg count) = heap (alloc_bytes cfg count)) :
    v_grow cfg heap1 vec count = v_grow cfg heap vec count := by
  cases vec <;> simp only [v_grow, h]

/-- One more push on a vector holding `ys`, with the capacity it ends at. -/
theorem v_push_back_holds_capacity {α : Type} (cfg : Config) (heap : Heap) (vec : Vec α)
    (ys : List α) (x : α) (hcfg : cfg.IsDefault) (hsz : 0 < cfg.sizeof_elem)
    (hheap : ∀ n, heap n = true)
    (hnw : (2 * ys.length + 8) * cfg.sizeof_elem + HEADER_BYTES < SIZE_MOD)
    (hv : Holds vec ys) :
    ∃ vec1, v_push_back cfg heap vec x = .ok vec1 ∧ Holds vec1 (ys ++ [x]) ∧
      v_capacity vec1 = (if v_capacity vec ≤ v_size vec
        then ideal_request cfg (v_capacity vec) else v_capacity vec) := by
  obtain ⟨vec1, h1, hv1⟩ := v_push_back_holds cfg heap vec ys x hcfg hsz hheap hnw hv
  obtain ⟨hsize, hwf, -⟩ := hv
  have hnw1 : NoWrap cfg vec := by
    intro hfull
    have hcap : v_capacity vec ≤ ys.length := by omega
    have h1 := ideal_request_le cfg hcfg (v_capacity vec)
    have h2 : ideal_request cfg (v_capacity vec) * cfg.sizeof_elem ≤
        (2 * ys.length + 8) * cfg.sizeof_elem := Nat.mul_le_mul_right _ (by omega)
    omega
  obtain ⟨b, hb, -, hc, -⟩ := v_push_back_ok cfg heap vec x hwf hsz hnw1
    (fun _ => hheap _) (fun _ => ideal_request_gt cfg hcfg _)
  rw [h1] at hb
  cases hb
  exact ⟨some b, h1, hv1, hc⟩

/-- One more push in the default multiplicative configuration keeps the
capacity on the doubling ladder. -/
theorem v_push_back_doubling {α : Type} (esz : Nat) (heap : Heap) (vec : Vec α)
    (ys : List α) (x : α) (hsz : 0 < esz) (hheap : ∀ n, heap n = true)
    (hnw : (2 * ys.length + 8) * esz + HEADER_BYTES < SIZE_MOD)
    (hv : Holds vec ys) (hd : DoublingInv vec ys.length) :
    ∃ vec1, v_push_back (Config.multiplicative esz) heap vec x = .ok vec1 ∧
      Holds vec1 (ys ++ [x]) ∧ DoublingInv vec1 (ys.length + 1) := by
  obtain ⟨vec1, h1, hv1, hc⟩ := v_push_back_holds_capacity (Config.multiplicative esz) heap
    vec ys x (Or.inl ⟨rfl, rfl, rfl⟩) hsz hheap hnw hv
  refine ⟨vec1, h1, hv1, Or.inr ⟨Nat.succ_pos _, ?_⟩⟩
  have hreq : ideal_request (Config.multiplicative esz) (v_capacity vec) =
      (if v_capacity vec ≠ 0 then v_capacity vec * 2 else 8) := by
    simp only [ideal_request, Config.multiplicative, Bool.false_eq_true, if_false]
  rw [hreq] at hc
  obtain ⟨hsize, ⟨hle, -⟩, -⟩ := hv
  rcases hd with ⟨hn0, hcap0⟩ | ⟨hpos, k, hk, hhalf⟩
  · refine ⟨0, ?_, Or.inl rfl⟩
    rw [hc, hcap0, if_pos (Nat.zero_le _)]
    simp
  · have hpow : 0 < 2 ^ k := Nat.pow_pos (by decide)
    by_cases hfull : v_capacity vec ≤ v_size vec
    · refine ⟨k + 1, ?_, Or.inr ?_⟩
      · rw [hc, if_pos hfull, if_pos (by omega), hk, Nat.pow_succ]
        omega
      · rw [Nat.pow_succ]
        omega
    · refine ⟨k, ?_, ?_⟩
      · rw [hc, if_neg hfull, hk]
      · rcases hhalf with h0 | hlt
        · exact Or.inl h0
        · exact Or.inr (by omega)

/-- Pushing `xs` in the default multiplicative configuration keeps the
capacity on the doubling ladder. -/
theorem push_all_doubling {α : Type} (esz : Nat) (heap : Heap) (hsz : 0 < esz)
    (hheap : ∀ n, heap n = true) (xs : List α) :
    ∀ (vec : Vec α) (ys : List α),
      (2 * (ys.length + xs.length) + 8) * esz + HEADER_BYTES < SIZE_MOD →
      Holds vec ys → DoublingInv vec ys.length →
      ∃ vec1, push_all (Config.multiplicative esz) heap xs vec = .ok vec1 ∧
        Holds vec1 (ys ++ xs) ∧ DoublingInv vec1 (ys.length + xs.length) := by
  induction xs with
  | nil =>
    intro vec ys _ hv hd
    exact ⟨vec, rfl, by simpa using hv, by simpa using hd⟩
  | cons x xs ih =>
    intro vec ys hnw hv hd
    have hmono : (2 * ys.length + 8) * esz ≤
        (2 * (ys.length + (x :: xs).length) + 8) * esz :=
      Nat.mul_le_mul_right _ (by omega)
    obtain ⟨vec1, h1, hv1, hd1⟩ := v_push_back_doubling esz heap vec ys x hsz hheap
      (by omega) hv hd
    have e : (ys ++ [x]).length + xs.length = ys.length + (x :: xs).length := by
      simp only [List.length_append, List.length_cons, List.length_nil]; omega
    have e1 : (ys ++ [x]).length = ys.length + 1 := by
      simp only [List.length_append, List.length_cons, List.length_nil]
    obtain ⟨vec2, h2, hv2, hd2⟩ := ih vec1 (ys ++ [x]) (by rw [e]; exact hnw) hv1
      (by rw [e1]; exact hd1)
    refine ⟨vec2, ?_, by simpa using hv2, by rw [← e]; exact hd2⟩
    simp only [push_all, h1]
    exact h2

/-- With the last index passed to `v_erase` as a value, on a live non-empty
vector, the result is exactly the handle `v_pop_back` produces: same count,
same capacity, same slots, the vacated one included. -/
theorem v_erase_last_eq_pop_back {α : Type} (b : Block α) (hne : 0 < v_size (some b)) :
    v_erase (some b) (v_size (some b) - 1) = .ok (v_pop_back (some b)) := by
  simp only [v_size_some] at hne ⊢
  have hi : b.size - 1 < b.size := by omega
  have hn : b.size - 1 - (b.size - 1) = 0 := by omega
  simp only [v_erase, v_size_some, hi, if_true, hn, v_erase_loop]
  rfl

/-- The by-value erase of the last index, applied to `[10, 20, 30]`. -/
theorem v_erase_last_eq_pop_back_witness :
    v_erase (some ⟨3, 8, [some 10, some 20, some 30, none, none, none, none, none],
        by decide, by decide⟩ : Vec Int) (3 - 1) =
      .ok (v_pop_back (some ⟨3, 8, [some 10, some 20, some 30, none, none, none, none, none],
        by decide, by decide⟩)) :=
  v_erase_last_eq_pop_back ⟨3, 8, [some 10, some 20, some 30, none, none, none, none, none],
    by decide, by decide⟩ (by decide)

/-- An index expression that does not read the vector makes `v_erase_expr`
the by-value `v_erase`. -/
theorem v_erase_expr_const {α : Type} (vec : Vec α) (i : Nat) :
    v_erase_expr vec (fun _ => i) = v_erase vec i := by
  cases vec <;> rfl

/-- The macro call `v_erase(v, v_size(v) - 1)` on a live vector of at least
two elements lying in its heap block: the test of line 161 sees `size - 1`,
the loop of line 164 starts at `size - 2`, so the result has the count
lowered by one and slot `size - 2` overwritten with slot `size - 1`. -/
theorem v_erase_expr_last {α : Type} (b : Block α) (h2 : 2 ≤ b.size)
    (hin : b.size ≤ b.data.length) :
    ∃ b1, v_erase_expr (some b) v_back_index = .ok (some b1) ∧ b1.size = b.size - 1 ∧
      b1.capacity = b.capacity ∧ b1.data.length = b.data.length ∧
      ∀ j, b1.data[j]? = if j = b.size - 2 then b.data[b.size - 1]? else b.data[j]? := by
  obtain ⟨b0, hb0, hs0, hc0, hd0⟩ := v_pop_back_some b (by omega)
  have hb0' : v_set_size (some b) ((b.size + SIZE_MOD - 1) % SIZE_MOD) = some b0 := hb0
  have hi1 : v_back_index (some b) = b.size - 1 := v_back_index_some b (by omega)
  have hi2 : v_back_index (some b0) = b.size - 2 := by
    rw [v_back_index_some b0 (by omega), hs0]; omega
  have hlt : b.size - 1 < b.size := by omega
  have hn : b.size - 1 - (b.size - 2) = 1 := by omega
  obtain ⟨b1, hrun, hs1, hc1, hl1, hj1⟩ := v_erase_loop_ok 1 b0 (b.size - 2)
    (by rw [hd0]; omega)
  refine ⟨b1, ?_, by omega, by omega, by rw [hl1, hd0], ?_⟩
  · simp only [v_erase_expr, v_size_some, hi1, hlt, if_true, hb0', hi2, hn]
    exact hrun
  · intro j
    rw [hj1 j, hd0]
    by_cases hj : j = b.size - 2
    · have e : j + 1 = b.size - 1 := by omega
      rw [if_pos (by omega), if_pos hj, e]
    · rw [if_neg (by omega), if_neg hj]

/-- The traced `v_grow` is `v_grow` with one call appended to the log: the
`malloc` on `NULL`, the `realloc` on a live block, for the bytes of the
request. -/
theorem v_grow_traced_eq {α : Type} (cfg : Config) (heap : Heap) (log : List HeapCall)
    (vec : Vec α) (count : Nat) :
    ∃ call, v_grow_traced cfg heap log vec count = (log ++ [call], v_grow cfg heap vec count) ∧
      call.bytes = alloc_bytes cfg count ∧
      (vec = none → call = .malloc (alloc_bytes cfg count)) ∧
      (vec ≠ none → call = .realloc (alloc_bytes cfg count)) := by
  cases vec with
  | none =>
    refine ⟨.malloc (alloc_bytes cfg count), ?_, rfl, fun _ => rfl, fun h => absurd rfl h⟩
    simp only [v_grow_traced, v_grow]
    split_ifs <;> rfl
  | some b =>
    refine ⟨.realloc (alloc_bytes cfg count), ?_, rfl, fun h => Option.noConfusion h,
      fun _ => rfl⟩
    simp only [v_grow_traced, v_grow]
    split_ifs <;> rfl

/-- The traced `v_push_back` returns what `v_push_back` returns, and its log
is that of the traced `v_grow` when `capacity <= size` and the old log
otherwise. -/
theorem v_push_back_traced_eq {α : Type} (cfg : Config) (heap : Heap) (log : List HeapCall)
    (vec : Vec α) (x : α) :
    (v_push_back_traced cfg heap log vec x).2 = v_push_back cfg heap vec x ∧
      (v_push_back_traced cfg heap log vec x).1 =
        (if v_capacity vec ≤ v_size vec
          then (v_grow_traced cfg heap log vec (grow_request cfg (v_capacity vec))).1
          else log) := by
  by_cases hc : v_capacity vec ≤ v_size vec
  · obtain ⟨call, hg, -⟩ := v_grow_traced_eq cfg heap log vec (grow_request cfg (v_capacity vec))
    cases hgr : v_grow cfg heap vec (grow_request cfg (v_capacity vec)) with
    | error f =>
      simp only [v_push_back_traced, v_push_back, if_pos hc, hg, hgr]
      refine ⟨?_, ?_⟩ <;> first | rfl | trivial
    | ok vec1 =>
      cases hst : v_store vec1 (v_size vec1) x with
      | error f =>
        simp only [v_push_back_traced, v_push_back, if_pos hc, hg, hgr, hst]
        refine ⟨?_, ?_⟩ <;> first | rfl | trivial
      | ok vec2 =>
        simp only [v_push_back_traced, v_push_back, if_pos hc, hg, hgr, hst]
        refine ⟨?_, ?_⟩ <;> first | rfl | trivial
  · cases hst : v_store vec (v_size vec) x with
    | error f =>
      simp only [v_push_back_traced, v_push_back, if_neg hc, hst]
      refine ⟨?_, ?_⟩ <;> first | rfl | trivial
    | ok vec2 =>
      simp only [v_push_back_traced, v_push_back, if_neg hc, hst]
      refine ⟨?_, ?_⟩ <;> first | rfl | trivial

/-! ## The claims -/

/-- C1: under a default configuration, a `v_push_back` on a well-formed vector
(`NULL` included) that does not wrap `size_t` and whose allocation request is
served returns a vector whose size is the old size plus one, whose slot at the
old size holds the pushed value, and whose slots below the old size are those
of the old vector. -/
theorem v_push_back_appends {α : Type} (cfg : Config) (heap : Heap) (vec : Vec α) (x : α)
    (hcfg : cfg.IsDefault) (hsz : 0 < cfg.sizeof_elem) (hwf : WellFormed vec)
    (hnw : NoWrap cfg vec) (hheap : GrowSucceeds cfg heap vec) :
    ∃ vec1, v_push_back cfg heap vec x = .ok vec1 ∧ v_size vec1 = v_size vec + 1 ∧
      (v_data vec1)[v_size vec]? = some (some x) ∧
      ∀ i, i < v_size vec → (v_data vec1)[i]? = (v_data vec)[i]? := by
  obtain ⟨b, hb, hs, hc, hd⟩ := v_push_back_ok cfg heap vec x hwf hsz hnw hheap
    (fun _ => ideal_request_gt cfg hcfg _)
  have hgt := ideal_request_gt cfg hcfg (v_capacity vec)
  have hle := hwf.1
  have hroom : v_size vec < b.capacity := by
    rw [hc]; split_ifs <;> omega
  obtain ⟨-, h1, h2⟩ := pushed_slots (v_data vec) b.capacity (v_size vec) x hroom
    (by have := hwf.1; have := hwf.2; omega)
  refine ⟨some b, hb, hs, ?_, ?_⟩
  · rw [v_data_some, hd]; exact h1
  · intro i hi
    rw [v_data_some, hd]; exact h2 i hi

/-- The statement of C1 applied to the vector `[10, 20]` of capacity 8. -/
theorem v_push_back_appends_witness :
    WellFormed (some ⟨2, 8, [some 10, some 20, none, none, none, none, none, none],
        by decide, by decide⟩ : Vec Int) ∧
      ∃ vec1, v_push_back (Config.multiplicative 4) (fun _ => true)
          (some ⟨2, 8, [some 10, some 20, none, none, none, none, none, none],
            by decide, by decide⟩ : Vec Int) 30 = .ok vec1 ∧
        v_size vec1 = 2 + 1 ∧ (v_data vec1)[2]? = some (some 30) ∧
        ∀ i, i < 2 → (v_data vec1)[i]? =
          [some 10, some 20, none, none, none, none, none, none][i]? :=
  ⟨⟨by decide, rfl⟩,
    v_push_back_appends (Config.multiplicative 4) (fun _ => true) _ 30
      (Or.inl ⟨rfl, rfl, rfl⟩) (by decide) ⟨by decide, rfl⟩
      (fun h => absurd h (by decide)) (fun _ => rfl)⟩

/-- C2: under a default configuration, with an allocator that serves every
request and a list short enough for no `size_t` wrap-around, pushing the
values of `xs` in order on `NULL` returns a vector of size `xs.length` whose
slot `i` holds `xs[i]`; the iterator loop from `v_begin` to `v_end` and the
index loop over `[0, size)` both terminate and read exactly the pushed values
in order. -/
theorem push_all_from_null {α : Type} (cfg : Config) (heap : Heap) (xs : List α)
    (hcfg : cfg.IsDefault) (hsz : 0 < cfg.sizeof_elem) (hheap : ∀ n, heap n = true)
    (hnw : (2 * xs.length + 8) * cfg.sizeof_elem + HEADER_BYTES < SIZE_MOD) :
    ∃ vec, push_all cfg heap xs none = .ok vec ∧ v_size vec = xs.length ∧
      (∀ i (hi : i < xs.length), (v_data vec)[i]? = some (some xs[i])) ∧
      ∀ fuel, xs.length < fuel →
        iterate vec fuel (v_begin vec) = some (.ok (xs.map some)) ∧
        index_loop vec fuel 0 = some (.ok (xs.map some)) := by
  obtain ⟨vec, hrun, hsize, hwf, htake⟩ := push_all_holds cfg heap hcfg hsz hheap xs none []
    (by simpa using hnw) ⟨rfl, ⟨Nat.le_refl _, rfl⟩, rfl⟩
  simp only [List.nil_append] at hsize htake
  refine ⟨vec, hrun, hsize, ?_, ?_⟩
  · intro i hi
    have h1 : ((v_data vec).take xs.length)[i]? = (v_data vec)[i]? := by
      rw [List.getElem?_take, if_pos hi]
    rw [← h1, htake, List.getElem?_map, List.getElem?_eq_getElem hi]
    rfl
  · intro fuel hf
    have h := loops_read_slots vec hwf fuel (by omega)
    rw [hsize, htake] at h
    exact h

/-- The statement of C2 applied to the pushes of `example.c`: 10, 20, 30. -/
theorem push_all_from_null_witness :
    ∃ vec, push_all (Config.multiplicative 4) (fun _ => true) [(10 : Int), 20, 30] none =
        .ok vec ∧ v_size vec = 3 ∧
      (∀ i (hi : i < 3), (v_data vec)[i]? = some (some ([(10 : Int), 20, 30][i]))) ∧
      ∀ fuel, 3 < fuel →
        iterate vec fuel (v_begin vec) = some (.ok [some 10, some 20, some 30]) ∧
        index_loop vec fuel 0 = some (.ok [some 10, some 20, some 30]) :=
  push_all_from_null (Config.multiplicative 4) (fun _ => true) [(10 : Int), 20, 30]
    (Or.inl ⟨rfl, rfl, rfl⟩) (by decide) (fun _ => rfl) (by decide)

/-- C3: every handle reachable from `NULL` by `v_push_back`, `v_pop_back` on a
non-empty vector and `v_erase` at any index has `size <= capacity`.  It holds
for every configuration and every allocator; a step that wraps `size_t` or
leaves the heap block produces no vector, so no such assumption is needed. -/
theorem reachable_size_le_capacity {α : Type} (cfg : Config) (heap : Heap) (vec : Vec α)
    (hr : Reachable cfg heap vec) : v_size vec ≤ v_capacity vec := by
  induction hr with
  | null => exact Nat.le_refl _
  | push_back x _ hpush _ => exact v_push_back_size_le cfg heap _ _ x hpush
  | @pop_back vec _ hne ih =>
    cases vec with
    | none => simp at hne
    | some b =>
      obtain ⟨b1, hb1, hs, hc, -⟩ := v_pop_back_some b hne
      rw [hb1]
      simp only [v_size_some, v_capacity_some] at ih ⊢
      omega
  | @erase vec vec1 i _ herase ih =>
    cases vec with
    | none =>
      simp only [v_erase, Except.ok.injEq] at herase
      subst herase
      exact ih
    | some b =>
      by_cases hi : i < b.size
      · simp only [v_erase, v_size_some, hi, if_true] at herase
        obtain ⟨hs, hc⟩ := v_erase_loop_header _ _ _ _ herase
        rw [hs, hc, v_size_set_size, v_capacity_set_size]
        simp only [v_size_some, v_capacity_some] at ih ⊢
        rw [size_t_pred b.size (by omega) b.size_lt]
        have := Nat.mod_le (b.size - 1) SIZE_MOD
        omega
      · simp only [v_erase, v_size_some, hi, if_false, Except.ok.injEq] at herase
        subst herase
        exact ih

/-- The statement of C3 applied to the run of `example.c` followed by an
erase: push 10, 20, 30, pop, erase index 0. -/
theorem reachable_size_le_capacity_witness :
    Reachable (Config.multiplicative 4) (fun _ => true) example_vec ∧
      v_size example_vec ≤ v_capacity example_vec :=
  ⟨example_vec_reachable,
    reachable_size_le_capacity (Config.multiplicative 4) (fun _ => true) example_vec
      example_vec_reachable⟩

/-- C5: `v_erase` at an index not below the size, on any handle (`NULL`
included), returns the handle it was given: size, capacity and every slot
are unchanged, and no fault is raised. -/
theorem v_erase_out_of_range {α : Type} (vec : Vec α) (i : Nat) (hi : v_size vec ≤ i) :
    v_erase vec i = .ok vec := by
  cases vec with
  | none => rfl
  | some b =>
    have : ¬ i < b.size := by simpa using hi
    simp only [v_erase, v_size_some, this, if_false]

/-- The statement of C5 applied to `[10, 20]` and index 2. -/
theorem v_erase_out_of_range_witness :
    v_erase (some ⟨2, 8, [some 10, some 20, some 30, none, none, none, none, none],
        by decide, by decide⟩ : Vec Int) 2 =
      .ok (some ⟨2, 8, [some 10, some 20, some 30, none, none, none, none, none],
        by decide, by decide⟩) :=
  v_erase_out_of_range _ 2 (by decide)

/-- C6: `v_pop_back` on a live, non-empty vector lowers the count word by one
and changes nothing else: the capacity word and every slot of the heap block,
the vacated one included, are as before. -/
theorem v_pop_back_frame {α : Type} (b : Block α) (hne : 0 < v_size (some b)) :
    ∃ b1, v_pop_back (some b) = some b1 ∧ v_size (some b1) = v_size (some b) - 1 ∧
      v_capacity (some b1) = v_capacity (some b) ∧ v_data (some b1) = v_data (some b) :=
  v_pop_back_some b hne

/-- The statement of C6 applied to `[10, 20, 30]`: size 2, slots untouched. -/
theorem v_pop_back_frame_witness :
    ∃ b1, v_pop_back (some ⟨3, 8, [some 10, some 20, some 30, none, none, none, none, none],
          by decide, by decide⟩ : Vec Int) = some b1 ∧
      v_size (some b1) = 3 - 1 ∧ v_capacity (some b1) = 8 ∧
      v_data (some b1) = [some 10, some 20, some 30, none, none, none, none, none] :=
  v_pop_back_frame ⟨3, 8, [some 10, some 20, some 30, none, none, none, none, none],
    by decide, by decide⟩ (by decide)

/-- C7: on a well-formed non-empty vector, `v_pop_back` followed by
`v_push_back` of `x` returns a vector of the original size whose last slot
holds `x`, whose slots below it are unchanged, and whose capacity is the
original one; this holds for every configuration and allocator, since the
push finds room and does not grow. -/
theorem pop_then_push {α : Type} (cfg : Config) (heap : Heap) (vec : Vec α) (x : α)
    (hwf : WellFormed vec) (hne : 0 < v_size vec) :
    ∃ vec2, v_push_back cfg heap (v_pop_back vec) x = .ok vec2 ∧
      v_size vec2 = v_size vec ∧
      (v_data vec2)[v_size vec - 1]? = some (some x) ∧
      (∀ i, i < v_size vec - 1 → (v_data vec2)[i]? = (v_data vec)[i]?) ∧
      v_capacity vec2 = v_capacity vec := by
  cases vec with
  | none => simp at hne
  | some b =>
    obtain ⟨hle, hlen⟩ := hwf
    simp only [v_size_some, v_capacity_some, v_data_some] at hle hlen hne ⊢
    obtain ⟨b1, hb1, hs1, hc1, hd1⟩ := v_pop_back_some b hne
    obtain ⟨b2, hb2, hs2, hc2, hd2⟩ := v_push_back_room cfg heap b1 x (by omega)
      (by rw [hc1, hd1]; omega)
    refine ⟨some b2, by rw [hb1]; exact hb2, ?_, ?_, ?_, ?_⟩
    · simp only [v_size_some]; omega
    · simp only [v_data_some]
      rw [hd2, hs1, hd1, List.getElem?_set]
      have : b.size - 1 < b.data.length := by omega
      simp [this]
    · intro i hi
      simp only [v_data_some]
      rw [hd2, hs1, hd1, List.getElem?_set]
      have : ¬ b.size - 1 = i := by omega
      simp [this]
    · simp only [v_capacity_some]; omega

/-- The statement of C7 applied to `[10, 20, 30]` in the linear configuration,
where the vector is full: pop, then push 40. -/
theorem pop_then_push_witness :
    ∃ vec2, v_push_back (Config.linear 4) (fun _ => true)
        (v_pop_back (some ⟨3, 3, [some 10, some 20, some 30], by decide, by decide⟩ : Vec Int))
        40 = .ok vec2 ∧
      v_size vec2 = 3 ∧ (v_data vec2)[3 - 1]? = some (some 40) ∧
      (∀ i, i < 3 - 1 → (v_data vec2)[i]? = [some 10, some 20, some 30][i]?) ∧
      v_capacity vec2 = 3 :=
  pop_then_push (Config.linear 4) (fun _ => true)
    (some ⟨3, 3, [some 10, some 20, some 30], by decide, by decide⟩ : Vec Int) 40
    ⟨by decide, rfl⟩ (by decide)

/-- C8 as stated fails: `v_grow(v, 1)` on `NULL` and one push leave a full
vector of capacity 1; the next push grows it to capacity 2 in the default
multiplicative configuration, while `max(MIN_CAPACITY, capacity *
GROWTH_FACTOR)` is 8. -/
theorem growth_below_min_capacity_counterexample :
    (match v_grow (Config.multiplicative 4) (fun _ => true) (none : Vec Int) 1 with
      | .ok vec => v_push_back (Config.multiplicative 4) (fun _ => true) vec 10
      | .error f => .error f) =
        .ok (some ⟨1, 1, [some 10], by decide, by decide⟩) ∧
      v_capacity (some ⟨1, 1, [some 10], by decide, by decide⟩ : Vec Int) ≤
        v_size (some ⟨1, 1, [some 10], by decide, by decide⟩ : Vec Int) ∧
      v_push_back (Config.multiplicative 4) (fun _ => true)
        (some ⟨1, 1, [some 10], by decide, by decide⟩ : Vec Int) 20 =
        .ok (some ⟨2, 2, [some 10, some 20], by decide, by decide⟩) ∧
      v_capacity (some ⟨2, 2, [some 10, some 20], by decide, by decide⟩ : Vec Int) ≠
        max (Config.multiplicative 4).MIN_CAPACITY
          (v_capacity (some ⟨1, 1, [some 10], by decide, by decide⟩ : Vec Int) *
            (Config.multiplicative 4).GROWTH_FACTOR) :=
  ⟨rfl, by decide, rfl, by decide⟩

/-- C8, amended: in the default multiplicative configuration, a `v_push_back`
on a well-formed vector whose capacity is exhausted, served by the allocator
and free of `size_t` wrap-around, returns a vector whose capacity is
`MIN_CAPACITY` (8) when the old capacity is 0 and the old capacity times
`GROWTH_FACTOR` (2) otherwise; that is `max(8, capacity * 2)` whenever the
old capacity is 0 or at least 4. -/
theorem multiplicative_growth_capacity {α : Type} (esz : Nat) (heap : Heap) (vec : Vec α)
    (x : α) (hsz : 0 < esz) (hwf : WellFormed vec) (hfull : v_capacity vec ≤ v_size vec)
    (hnw : NoWrap (Config.multiplicative esz) vec)
    (hheap : GrowSucceeds (Config.multiplicative esz) heap vec) :
    ∃ vec1, v_push_back (Config.multiplicative esz) heap vec x = .ok vec1 ∧
      v_capacity vec1 = (if v_capacity vec = 0 then 8 else v_capacity vec * 2) ∧
      (v_capacity vec = 0 ∨ 4 ≤ v_capacity vec →
        v_capacity vec1 = max 8 (v_capacity vec * 2)) := by
  obtain ⟨b, hb, -, hc, -⟩ := v_push_back_ok (Config.multiplicative esz) heap vec x hwf hsz
    hnw hheap (fun _ => ideal_request_gt _ (Or.inl ⟨rfl, rfl, rfl⟩) _)
  rw [if_pos hfull] at hc
  have hcap : b.capacity = (if v_capacity vec = 0 then 8 else v_capacity vec * 2) := by
    rw [hc]
    simp only [ideal_request, Config.multiplicative, Bool.false_eq_true, if_false]
    split_ifs <;> simp_all
  refine ⟨some b, hb, hcap, ?_⟩
  intro h
  rw [v_capacity_some, hcap]
  split_ifs with h0
  · rw [h0]; rfl
  · have : 8 ≤ v_capacity vec * 2 := by omega
    exact (Nat.max_eq_right this).symm

/-- The amended C8 applied to the full vector `[0, 1, 2, 3]` of capacity 4:
the capacity becomes 8. -/
theorem multiplicative_growth_capacity_witness :
    ∃ vec1, v_push_back (Config.multiplicative 4) (fun _ => true)
        (some ⟨4, 4, [some 0, some 1, some 2, some 3], by decide, by decide⟩ : Vec Int) 4 =
        .ok vec1 ∧
      v_capacity vec1 = (if 4 = 0 then 8 else 4 * 2) ∧
      (4 = 0 ∨ 4 ≤ 4 → v_capacity vec1 = max 8 (4 * 2)) :=
  multiplicative_growth_capacity 4 (fun _ => true)
    (some ⟨4, 4, [some 0, some 1, some 2, some 3], by decide, by decide⟩ : Vec Int) 4
    (by decide) ⟨by decide, rfl⟩ (by decide) (fun _ => by decide) (fun _ => rfl)

/-- C9 as stated fails: with `LINEAR_GROWTH` and `GROWTH_FACTOR` 2, the first
push on `NULL` gives capacity 1, not the growth factor. -/
theorem linear_growth_from_null_counterexample :
    v_push_back (Config.linear_by 2 4) (fun _ => true) (none : Vec Int) 10 =
        .ok (some ⟨1, 1, [some 10], by decide, by decide⟩) ∧
      v_capacity (some ⟨1, 1, [some 10], by decide, by decide⟩ : Vec Int) ≠ 2 :=
  ⟨rfl, by decide⟩

/-- C9, amended: under `LINEAR_GROWTH` with any positive `GROWTH_FACTOR`, a
`v_push_back` on a well-formed vector whose capacity is exhausted, served by
the allocator and free of `size_t` wrap-around, returns a vector whose
capacity is the old capacity plus `GROWTH_FACTOR` when the old capacity is
positive, and 1 when the old capacity is 0. -/
theorem linear_growth_capacity {α : Type} (cfg : Config) (heap : Heap) (vec : Vec α) (x : α)
    (hlin : cfg.LINEAR_GROWTH = true) (hg : 0 < cfg.GROWTH_FACTOR)
    (hsz : 0 < cfg.sizeof_elem) (hwf : WellFormed vec)
    (hfull : v_capacity vec ≤ v_size vec) (hnw : NoWrap cfg vec)
    (hheap : GrowSucceeds cfg heap vec) :
    ∃ vec1, v_push_back cfg heap vec x = .ok vec1 ∧
      v_capacity vec1 =
        (if v_capacity vec = 0 then 1 else v_capacity vec + cfg.GROWTH_FACTOR) := by
  have hreq : ∀ cap, ideal_request cfg cap = (if cap = 0 then 1 else cap + cfg.GROWTH_FACTOR) := by
    intro cap
    simp only [ideal_request, hlin, if_true]
    split_ifs with h0
    · rw [h0]
    · rfl
  obtain ⟨b, hb, -, hc, -⟩ := v_push_back_ok cfg heap vec x hwf hsz hnw hheap
    (fun _ => by rw [hreq]; split_ifs <;> omega)
  rw [if_pos hfull, hreq] at hc
  exact ⟨some b, hb, hc⟩

/-- The amended C9 applied to the full vector `[10, 20]` with
`GROWTH_FACTOR` 3: the capacity becomes 5. -/
theorem linear_growth_capacity_witness :
    ∃ vec1, v_push_back (Config.linear_by 3 4) (fun _ => true)
        (some ⟨2, 2, [some 10, some 20], by decide, by decide⟩ : Vec Int) 30 = .ok vec1 ∧
      v_capacity vec1 = (if 2 = 0 then 1 else 2 + 3) :=
  linear_growth_capacity (Config.linear_by 3 4) (fun _ => true)
    (some ⟨2, 2, [some 10, some 20], by decide, by decide⟩ : Vec Int) 30
    rfl (by decide) (by decide) ⟨by decide, rfl⟩ (by decide) (fun _ => by decide)
    (fun _ => rfl)

/-- C10, the code at the failing input: on `NULL` the size is 0 and yet
`v_empty` evaluates to 0 (false). -/
theorem v_empty_null_is_false :
    v_size (none : Vec Int) = 0 ∧ v_empty (none : Vec Int) = false :=
  ⟨rfl, rfl⟩

/-- C11 as stated fails: `v_grow` to a capacity below the size reallocates
the block to that capacity, so `v_grow(v, 1)` on `[10, 20, 30]` keeps the
count 3 but only the slot of 10; the element at index 1 is no longer that of
the old vector. -/
theorem v_grow_below_size_counterexample :
    v_grow (Config.multiplicative 4) (fun _ => true)
        (some ⟨3, 8, [some 10, some 20, some 30, none, none, none, none, none],
          by decide, by decide⟩ : Vec Int) 1 =
        .ok (some ⟨3, 1, [some 10], by decide, by decide⟩) ∧
      1 < v_size (some ⟨3, 8, [some 10, some 20, some 30, none, none, none, none, none],
          by decide, by decide⟩ : Vec Int) ∧
      (v_data (some ⟨3, 1, [some 10], by decide, by decide⟩ : Vec Int))[1]? ≠
        (v_data (some ⟨3, 8, [some 10, some 20, some 30, none, none, none, none, none],
          by decide, by decide⟩ : Vec Int))[1]? :=
  ⟨rfl, by decide, by decide⟩

/-- C11, amended: for every handle whose elements lie in its heap block and
every new capacity `n` not below its size, a `v_grow` that is served by the
allocator and does not wrap `size_t` returns a live block of capacity exactly
`n`, with `n` slots, whose count is the old size (0 for `NULL`) and whose
slots below the old size are those of the old vector. -/
theorem v_grow_keeps_elements {α : Type} (cfg : Config) (heap : Heap) (vec : Vec α) (n : Nat)
    (hsz : 0 < cfg.sizeof_elem) (hnw : n * cfg.sizeof_elem + HEADER_BYTES < SIZE_MOD)
    (hheap : heap (alloc_bytes cfg n) = true) (hle : v_size vec ≤ n)
    (hin : v_size vec ≤ (v_data vec).length) :
    ∃ b, v_grow cfg heap vec n = .ok (some b) ∧ b.capacity = n ∧ b.size = v_size vec ∧
      b.data.length = n ∧ ∀ i, i < v_size vec → b.data[i]? = (v_data vec)[i]? := by
  obtain ⟨b, hb, hs, hc, hd⟩ := v_grow_ok cfg heap vec n hsz hnw hheap
  refine ⟨b, hb, hc, hs, ?_, ?_⟩
  · rw [hd, length_realloc_data]
  · intro i hi
    rw [hd]
    exact realloc_data_getElem? (v_data vec) n i (by omega) (by omega)

/-- The amended C11 applied to `[10, 20, 30]` of capacity 3 grown to 5. -/
theorem v_grow_keeps_elements_witness :
    ∃ b, v_grow (Config.linear 4) (fun _ => true)
        (some ⟨3, 3, [some 10, some 20, some 30], by decide, by decide⟩ : Vec Int) 5 =
        .ok (some b) ∧
      b.capacity = 5 ∧ b.size = 3 ∧ b.data.length = 5 ∧
      ∀ i, i < 3 → b.data[i]? = [some 10, some 20, some 30][i]? :=
  v_grow_keeps_elements (Config.linear 4) (fun _ => true)
    (some ⟨3, 3, [some 10, some 20, some 30], by decide, by decide⟩ : Vec Int) 5
    (by decide) (by decide) rfl (by decide) (by decide)

/-- C12: on a vector whose elements lie in its heap block, the loop from
`v_begin` to `v_end` terminates (any fuel above the size), visits exactly
`size` slots, and the `k`-th slot visited is the slot at index `k`; on `NULL`
both `v_begin` and `v_end` are `NULL` and the loop visits nothing. -/
theorem traversal_visits_elements {α : Type} (vec : Vec α) (fuel : Nat)
    (hin : v_size vec ≤ (v_data vec).length) (hf : v_size vec < fuel) :
    (∃ es, iterate vec fuel (v_begin vec) = some (.ok es) ∧ es.length = v_size vec ∧
        ∀ k, k < v_size vec → es[k]? = (v_data vec)[k]?) ∧
      v_begin (none : Vec α) = none ∧ v_end (none : Vec α) = none ∧
      iterate (none : Vec α) fuel (v_begin (none : Vec α)) = some (.ok []) := by
  obtain ⟨f, rfl⟩ : ∃ f, fuel = f + 1 := ⟨fuel - 1, by omega⟩
  refine ⟨?_, rfl, rfl, rfl⟩
  cases vec with
  | none => exact ⟨[], rfl, rfl, fun k hk => absurd hk (Nat.not_lt_zero k)⟩
  | some b =>
    simp only [v_size_some, v_data_some] at hin hf ⊢
    refine ⟨_, iterate_ok b hin b.size 0 (f + 1) (by omega) hf, ?_, ?_⟩
    · simp only [List.drop_zero, List.length_take]; omega
    · intro k hk
      simp only [List.drop_zero]
      rw [List.getElem?_take, if_pos hk]

/-- The statement of C12 applied to the vector of `example.c` after its
pop: `[10, 20]`, with a stale 30 behind. -/
theorem traversal_visits_elements_witness :
    (∃ es, iterate (some ⟨2, 8, [some 10, some 20, some 30, none, none, none, none, none],
            by decide, by decide⟩ : Vec Int) 3 (some 0) = some (.ok es) ∧
        es.length = 2 ∧
        ∀ k, k < 2 → es[k]? = [some 10, some 20, some 30, none, none, none, none, none][k]?) ∧
      v_begin (none : Vec Int) = none ∧ v_end (none : Vec Int) = none ∧
      iterate (none : Vec Int) 3 (v_begin (none : Vec Int)) = some (.ok []) :=
  traversal_visits_elements (some ⟨2, 8, [some 10, some 20, some 30, none, none, none, none,
    none], by decide, by decide⟩ : Vec Int) 3 (by decide) (by decide)

/-- C13: on a non-empty vector whose elements lie in its heap block,
`v_back` reads the slot at index `size - 1`, and an assignment through it
returns a vector with the same size and capacity that holds the new value in
that slot and the old slots everywhere else; and under a default
configuration, `v_back` after a `v_push_back` of `x` on a well-formed vector
(served, no `size_t` wrap-around) reads `x`. -/
theorem v_back_denotes_last {α : Type} (cfg : Config) (heap : Heap) (vec vec0 : Vec α)
    (x y : α) (hne : 0 < v_size vec) (hin : v_size vec ≤ (v_data vec).length)
    (hcfg : cfg.IsDefault) (hsz : 0 < cfg.sizeof_elem) (hwf : WellFormed vec0)
    (hnw : NoWrap cfg vec0) (hheap : GrowSucceeds cfg heap vec0) :
    (∃ e, (v_data vec)[v_size vec - 1]? = some e ∧ v_back vec = .ok e) ∧
      (∃ vec1, v_back_assign vec y = .ok vec1 ∧ v_size vec1 = v_size vec ∧
        v_capacity vec1 = v_capacity vec ∧
        (v_data vec1).length = (v_data vec).length ∧
        (v_data vec1)[v_size vec - 1]? = some (some y) ∧
        ∀ i, i ≠ v_size vec - 1 → (v_data vec1)[i]? = (v_data vec)[i]?) ∧
      ∃ vec1, v_push_back cfg heap vec0 x = .ok vec1 ∧ v_back vec1 = .ok (some x) := by
  refine ⟨?_, ?_, ?_⟩
  · cases vec with
    | none => simp at hne
    | some b =>
      simp only [v_size_some, v_data_some] at hne hin ⊢
      have hlt : b.size - 1 < b.data.length := by omega
      refine ⟨b.data[b.size - 1], List.getElem?_eq_getElem hlt, ?_⟩
      unfold v_back
      rw [v_back_index_some b hne]
      exact v_load_some b _ _ (List.getElem?_eq_getElem hlt)
  · cases vec with
    | none => simp at hne
    | some b =>
      simp only [v_size_some, v_data_some, v_capacity_some] at hne hin ⊢
      have hlt : b.size - 1 < b.data.length := by omega
      obtain ⟨b1, hb1, hs1, hc1, hd1⟩ := v_store_some b (b.size - 1) y hlt
      refine ⟨some b1, ?_, hs1, hc1, ?_, ?_, ?_⟩
      · unfold v_back_assign
        rw [v_back_index_some b hne]
        exact hb1
      · simp only [v_data_some, hd1, List.length_set]
      · simp only [v_data_some, hd1, List.getElem?_set, hlt, if_true]
      · intro i hi
        have : ¬ b.size - 1 = i := fun e => hi e.symm
        simp only [v_data_some, hd1, List.getElem?_set, this, if_false]
  · obtain ⟨b, hb, hs, hc, hd⟩ := v_push_back_ok cfg heap vec0 x hwf hsz hnw hheap
      (fun _ => ideal_request_gt cfg hcfg _)
    have hgt := ideal_request_gt cfg hcfg (v_capacity vec0)
    have hle := hwf.1
    have hlen := hwf.2
    have hroom : v_size vec0 < b.capacity := by
      rw [hc]; split_ifs <;> omega
    obtain ⟨-, h1, -⟩ := pushed_slots (v_data vec0) b.capacity (v_size vec0) x hroom
      (by omega)
    rw [← hd] at h1
    refine ⟨some b, hb, ?_⟩
    unfold v_back
    rw [v_back_index_some b (by omega)]
    apply v_load_some
    have e : b.size - 1 = v_size vec0 := by omega
    rw [e]
    exact h1

/-- The statement of C13 applied to `[10, 20, 30]` (read 30, overwrite it
with 99) and to a push of 40 on `[10, 20]`. -/
theorem v_back_denotes_last_witness :
    (∃ e, (v_data (some ⟨3, 8, [some 10, some 20, some 30, none, none, none, none, none],
            by decide, by decide⟩ : Vec Int))[3 - 1]? = some e ∧
        v_back (some ⟨3, 8, [some 10, some 20, some 30, none, none, none, none, none],
            by decide, by decide⟩ : Vec Int) = .ok e) ∧
      (∃ vec1, v_back_assign (some ⟨3, 8, [some 10, some 20, some 30, none, none, none, none,
            none], by decide, by decide⟩ : Vec Int) 99 = .ok vec1 ∧
        v_size vec1 = 3 ∧ v_capacity vec1 = 8 ∧ (v_data vec1).length = 8 ∧
        (v_data vec1)[3 - 1]? = some (some 99) ∧
        ∀ i, i ≠ 3 - 1 → (v_data vec1)[i]? =
          [some 10, some 20, some 30, none, none, none, none, none][i]?) ∧
      ∃ vec1, v_push_back (Config.linear 4) (fun _ => true)
          (some ⟨2, 2, [some 10, some 20], by decide, by decide⟩ : Vec Int) 40 = .ok vec1 ∧
        v_back vec1 = .ok (some 40) :=
  v_back_denotes_last (Config.linear 4) (fun _ => true)
    (some ⟨3, 8, [some 10, some 20, some 30, none, none, none, none, none],
      by decide, by decide⟩ : Vec Int)
    (some ⟨2, 2, [some 10, some 20], by decide, by decide⟩ : Vec Int) 40 99
    (by decide) (by decide) (Or.inr ⟨rfl, rfl⟩) (by decide) ⟨by decide, rfl⟩
    (fun _ => by decide) (fun _ => rfl)

/-- C14: `v_capacity` and `v_size` are functions of the handle alone (total,
with no effect on it): both are 0 on `NULL`; on a live block they are the
stored capacity word and the stored count word, that is the value last
written by `v_set_capacity` respectively `v_set_size` (a `size_t` value),
each write leaving the other word alone; and after a `v_grow` that returns
they read the capacity asked for and the old count. -/
theorem accessors_read_header {α : Type} :
    v_capacity (none : Vec α) = 0 ∧ v_size (none : Vec α) = 0 ∧
      (∀ (b : Block α) (n : Nat),
        v_capacity (some b) = b.capacity ∧ v_size (some b) = b.size ∧
        v_capacity (v_set_capacity (some b) n) = n % SIZE_MOD ∧
        v_size (v_set_size (some b) n) = n % SIZE_MOD ∧
        v_size (v_set_capacity (some b) n) = b.size ∧
        v_capacity (v_set_size (some b) n) = b.capacity) ∧
      ∀ (cfg : Config) (heap : Heap) (vec vec1 : Vec α) (count : Nat),
        v_grow cfg heap vec count = .ok vec1 →
          v_capacity vec1 = count % SIZE_MOD ∧ v_size vec1 = v_size vec := by
  refine ⟨rfl, rfl, fun _ _ => ⟨rfl, rfl, rfl, rfl, rfl, rfl⟩, ?_⟩
  intro cfg heap vec vec1 count h
  obtain ⟨b1, rfl, hs, hc, -⟩ := v_grow_inv cfg heap vec vec1 count h
  exact ⟨hc, hs⟩

/-- The statement of C14 applied to `NULL` grown to capacity 8, and to the
header writes on `[10, 20]`. -/
theorem accessors_read_header_witness :
    v_capacity (v_set_capacity (some ⟨2, 8, [some 10, some 20, none, none, none, none, none,
        none], by decide, by decide⟩ : Vec Int) 5) = 5 % SIZE_MOD ∧
      v_size (v_set_size (some ⟨2, 8, [some 10, some 20, none, none, none, none, none,
        none], by decide, by decide⟩ : Vec Int) 1) = 1 % SIZE_MOD ∧
      v_capacity (some ⟨0, 8, [none, none, none, none, none, none, none, none],
        by decide, by decide⟩ : Vec Int) = 8 % SIZE_MOD ∧
      v_size (some ⟨0, 8, [none, none, none, none, none, none, none, none],
        by decide, by decide⟩ : Vec Int) = v_size (none : Vec Int) :=
  ⟨(accessors_read_header.2.2.1 _ 5).2.2.1, (accessors_read_header.2.2.1 _ 1).2.2.2.1,
    accessors_read_header.2.2.2 (Config.multiplicative 4) (fun _ => true) none _ 8 rfl⟩

/-- C15: `v_grow` ends in the failed assertion exactly when the allocator
refuses its request, and `v_push_back` exactly when it has to grow and the
allocator refuses; the outcome is then a fault and carries no vector, so no
handle, header word or element is produced.  When the allocator serves the
request no assertion fails, and without `size_t` wrap-around `v_grow` returns
a live block. -/
theorem alloc_failure_is_fatal {α : Type} (cfg : Config) (heap : Heap) (vec : Vec α)
    (count : Nat) (x : α) :
    (v_grow cfg heap vec count = .error .assert_failed ↔
        heap (alloc_bytes cfg count) = false) ∧
      (v_push_back cfg heap vec x = .error .assert_failed ↔
        (v_capacity vec ≤ v_size vec ∧
          heap (alloc_bytes cfg (grow_request cfg (v_capacity vec))) = false)) ∧
      (heap (alloc_bytes cfg count) = true → 0 < cfg.sizeof_elem →
        count * cfg.sizeof_elem + HEADER_BYTES < SIZE_MOD →
        ∃ b, v_grow cfg heap vec count = .ok (some b)) := by
  have hgrow : ∀ (v : Vec α) (c : Nat),
      v_grow cfg heap v c = .error .assert_failed ↔ heap (alloc_bytes cfg c) = false := by
    intro v c
    cases hh : heap (alloc_bytes cfg c) with
    | false => cases v <;> simp [v_grow, hh]
    | true =>
      by_cases hb : alloc_bytes cfg c < HEADER_BYTES
      · cases v <;> simp [v_grow, hh, hb]
      · cases v <;> simp [v_grow, hh, hb]
  refine ⟨hgrow vec count, ?_, ?_⟩
  · by_cases hc : v_capacity vec ≤ v_size vec
    · cases hg : v_grow cfg heap vec (grow_request cfg (v_capacity vec)) with
      | error f =>
        have hpush : v_push_back cfg heap vec x = .error f := by
          simp only [v_push_back, if_pos hc, hg]
        rw [hpush, ← hgrow vec, hg]
        simp [hc]
      | ok vec1 =>
        have hne : heap (alloc_bytes cfg (grow_request cfg (v_capacity vec))) ≠ false := by
          intro hf
          rw [← hgrow vec, hg] at hf
          cases hf
        obtain ⟨b1, rfl, -⟩ := v_grow_inv cfg heap vec vec1 _ hg
        have hpush : v_push_back cfg heap vec x ≠ .error .assert_failed := by
          simp only [v_push_back, if_pos hc, hg, v_store, v_store_slot]
          split_ifs <;> simp
        simp [hpush, hne]
    · cases vec with
      | none => simp at hc
      | some b =>
        have hpush : v_push_back cfg heap (some b) x ≠ .error .assert_failed := by
          simp only [v_push_back, if_neg hc, v_store, v_store_slot]
          split_ifs <;> simp
        constructor
        · intro h; exact absurd h hpush
        · intro h; exact absurd h.1 hc
  · intro hh hsz hnw
    obtain ⟨b, hb, -⟩ := v_grow_ok cfg heap vec count hsz hnw hh
    exact ⟨b, hb⟩

/-- The statement of C15 applied to an allocator that refuses everything:
`v_grow` on `NULL` and a push on the full `[10, 20]` end in the failed
assertion, a push on `[10, 20]` of capacity 8 does not. -/
theorem alloc_failure_is_fatal_witness :
    v_grow (Config.multiplicative 4) (fun _ => false) (none : Vec Int) 8 =
        .error .assert_failed ∧
      v_push_back (Config.linear 4) (fun _ => false)
          (some ⟨2, 2, [some 10, some 20], by decide, by decide⟩ : Vec Int) 30 =
        .error .assert_failed ∧
      ¬ v_push_back (Config.multiplicative 4) (fun _ => false)
          (some ⟨2, 8, [some 10, some 20, none, none, none, none, none, none],
            by decide, by decide⟩ : Vec Int) 30 = .error .assert_failed :=
  ⟨(alloc_failure_is_fatal (Config.multiplicative 4) (fun _ => false) (none : Vec Int) 8
      0).1.mpr rfl,
    (alloc_failure_is_fatal (Config.linear 4) (fun _ => false)
      (some ⟨2, 2, [some 10, some 20], by decide, by decide⟩ : Vec Int) 0 30).2.1.mpr
      ⟨by decide, rfl⟩,
    fun h => absurd
      ((alloc_failure_is_fatal (Config.multiplicative 4) (fun _ => false)
        (some ⟨2, 8, [some 10, some 20, none, none, none, none, none, none],
          by decide, by decide⟩ : Vec Int) 0 30).2.1.mp h).1 (by decide)⟩

/-- C16 as stated fails: multiplicative mode with `GROWTH_FACTOR` 1 is a
permitted configuration, yet there a push on a full vector asks `v_grow` for
the capacity it already has and then stores one slot past the heap block.
With `MIN_CAPACITY` 1: the first push on `NULL` gives the well-formed `[10]`
of capacity 1; on it nothing wraps and the allocator serves; `v_grow` returns
the same block, and the push has no defined result (in C the count word
would become 2 above a capacity of 1). -/
theorem growth_factor_one_counterexample :
    (Config.multiplicative_by 1 1 4).IsPermitted ∧
      v_push_back (Config.multiplicative_by 1 1 4) (fun _ => true) (none : Vec Int) 10 =
        .ok (some ⟨1, 1, [some 10], by decide, by decide⟩) ∧
      WellFormed (some ⟨1, 1, [some 10], by decide, by decide⟩ : Vec Int) ∧
      NoWrap (Config.multiplicative_by 1 1 4)
        (some ⟨1, 1, [some 10], by decide, by decide⟩ : Vec Int) ∧
      GrowSucceeds (Config.multiplicative_by 1 1 4) (fun _ => true)
        (some ⟨1, 1, [some 10], by decide, by decide⟩ : Vec Int) ∧
      v_grow (Config.multiplicative_by 1 1 4) (fun _ => true)
          (some ⟨1, 1, [some 10], by decide, by decide⟩ : Vec Int)
          (grow_request (Config.multiplicative_by 1 1 4) 1) =
        .ok (some ⟨1, 1, [some 10], by decide, by decide⟩) ∧
      v_push_back (Config.multiplicative_by 1 1 4) (fun _ => true)
          (some ⟨1, 1, [some 10], by decide, by decide⟩ : Vec Int) 20 =
        .error .undefined_behaviour :=
  ⟨⟨by decide, fun _ => by decide⟩, rfl, ⟨by decide, rfl⟩, fun _ => by decide,
    fun _ => rfl, rfl, rfl⟩

/-- C16, amended: for every permitted configuration that enlarges (either
growth mode, `GROWTH_FACTOR` at least 1 in linear and at least 2 in
multiplicative mode, `MIN_CAPACITY` at least 1 in multiplicative mode) and
every well-formed vector, a `v_push_back` that is served by the allocator and
does not wrap `size_t` returns a vector with `size <= capacity`. -/
theorem push_keeps_size_le_capacity {α : Type} (cfg : Config) (heap : Heap) (vec : Vec α)
    (x : α) (hcfg : cfg.Enlarges) (hsz : 0 < cfg.sizeof_elem) (hwf : WellFormed vec)
    (hnw : NoWrap cfg vec) (hheap : GrowSucceeds cfg heap vec) :
    ∃ vec1, v_push_back cfg heap vec x = .ok vec1 ∧ v_size vec1 ≤ v_capacity vec1 := by
  obtain ⟨b, hb, -⟩ := v_push_back_ok cfg heap vec x hwf hsz hnw hheap
    (fun _ => ideal_request_gt_of_enlarges cfg hcfg _)
  exact ⟨some b, hb, v_push_back_size_le cfg heap vec (some b) x hb⟩

/-- The amended C16 applied to a full vector of capacity 2 in multiplicative
mode with `GROWTH_FACTOR` 3. -/
theorem push_keeps_size_le_capacity_witness :
    ∃ vec1, v_push_back (Config.multiplicative_by 3 1 4) (fun _ => true)
        (some ⟨2, 2, [some 10, some 20], by decide, by decide⟩ : Vec Int) 30 = .ok vec1 ∧
      v_size vec1 ≤ v_capacity vec1 :=
  push_keeps_size_le_capacity (Config.multiplicative_by 3 1 4) (fun _ => true)
    (some ⟨2, 2, [some 10, some 20], by decide, by decide⟩ : Vec Int) 30
    ⟨⟨by decide, fun _ => by decide⟩, fun _ => by decide⟩ (by decide) ⟨by decide, rfl⟩
    (fun _ => by decide) (fun _ => rfl)

/-- C17: run against a heap that logs its calls, a `v_push_back` on a
well-formed vector returns what `v_push_back` returns and, when `capacity <=
size`, makes exactly one call, the `malloc` (on `NULL`) or `realloc` of its
`v_grow` for the bytes of the request: refused, the push ends in the failed
assertion; served without `size_t` wrap-around for a request above the old
capacity, the push returns a vector with the requested capacity and that
many slots, holding the old elements and the pushed value.  When `size <
capacity` it makes no call, and returns a vector with the same capacity, the
count raised by one, and the old slots except for the pushed value at index
`size`. -/
theorem v_push_back_grows_once {α : Type} (cfg : Config) (heap : Heap) (log : List HeapCall)
    (vec : Vec α) (x : α) (hwf : WellFormed vec) :
    (v_push_back_traced cfg heap log vec x).2 = v_push_back cfg heap vec x ∧
      (v_capacity vec ≤ v_size vec →
        (v_push_back_traced cfg heap log vec x).1 =
          log ++ [match vec with
            | none => HeapCall.malloc (alloc_bytes cfg (grow_request cfg (v_capacity vec)))
            | some _ => HeapCall.realloc (alloc_bytes cfg (grow_request cfg (v_capacity vec)))] ∧
        (heap (alloc_bytes cfg (grow_request cfg (v_capacity vec))) = false →
          v_push_back cfg heap vec x = .error .assert_failed) ∧
        (0 < cfg.sizeof_elem → NoWrap cfg vec → GrowSucceeds cfg heap vec →
          v_capacity vec < ideal_request cfg (v_capacity vec) →
          ∃ vec1, v_push_back cfg heap vec x = .ok vec1 ∧
            v_capacity vec1 = grow_request cfg (v_capacity vec) ∧
            (v_data vec1).length = grow_request cfg (v_capacity vec) ∧
            v_size vec1 = v_size vec + 1 ∧
            (v_data vec1)[v_size vec]? = some (some x) ∧
            ∀ i, i < v_size vec → (v_data vec1)[i]? = (v_data vec)[i]?)) ∧
      (v_size vec < v_capacity vec →
        (v_push_back_traced cfg heap log vec x).1 = log ∧
        ∃ vec1, v_push_back cfg heap vec x = .ok vec1 ∧ v_capacity vec1 = v_capacity vec ∧
          v_size vec1 = v_size vec + 1 ∧
          v_data vec1 = (v_data vec).set (v_size vec) (some x)) := by
  obtain ⟨hres, hlog⟩ := v_push_back_traced_eq cfg heap log vec x
  refine ⟨hres, ?_, ?_⟩
  · intro hc
    refine ⟨?_, ?_, ?_⟩
    · rw [hlog, if_pos hc]
      obtain ⟨call, hg, -, hnone, hsome⟩ :=
        v_grow_traced_eq cfg heap log vec (grow_request cfg (v_capacity vec))
      rw [hg]
      cases vec with
      | none => rw [hnone rfl]
      | some b => rw [hsome (fun h => Option.noConfusion h)]
    · intro hrefuse
      cases vec with
      | none => simp only [v_push_back, if_pos hc, v_grow, hrefuse, if_true]
      | some b => simp only [v_push_back, if_pos hc, v_grow, hrefuse, if_true]
    · intro hsz hnw hheap hmore
      obtain ⟨b, hb, hs, hcap, hd⟩ := v_push_back_ok cfg heap vec x hwf hsz hnw hheap
        (fun _ => hmore)
      rw [if_pos hc] at hcap
      have hreq := grow_request_eq_ideal cfg _ (count_lt_of_bytes cfg _ hsz (hnw hc))
      have hle := hwf.1
      have hlen := hwf.2
      obtain ⟨h0, h1, h2⟩ := pushed_slots (v_data vec) b.capacity (v_size vec) x
        (by omega) (by omega)
      rw [← hd] at h0 h1 h2
      exact ⟨some b, hb, by rw [hreq]; exact hcap, by rw [hreq, ← hcap]; exact h0, hs, h1, h2⟩
  · intro hroom
    have hc : ¬ v_capacity vec ≤ v_size vec := by omega
    refine ⟨by rw [hlog, if_neg hc], ?_⟩
    cases vec with
    | none => simp at hroom
    | some b =>
      obtain ⟨hle, hlen⟩ := hwf
      simp only [v_size_some, v_capacity_some, v_data_some] at hroom hlen ⊢
      obtain ⟨b2, hb2, hs2, hc2, hd2⟩ := v_push_back_room cfg heap b x hroom (by omega)
      exact ⟨some b2, hb2, hc2, hs2, hd2⟩

/-- The statement of C17 applied to a push on `NULL` (one `malloc` of 48
bytes, capacity 8), on the full `[10, 20]` in the linear configuration (one
`realloc` of 28 bytes, capacity 3), and on `[10, 20]` of capacity 8 with an
allocator that refuses everything (no call, capacity 8). -/
theorem v_push_back_grows_once_witness :
    ((v_push_back_traced (Config.multiplicative 4) (fun _ => true) [] (none : Vec Int) 10).1 =
        [HeapCall.malloc 48] ∧
      ∃ vec1, v_push_back (Config.multiplicative 4) (fun _ => true) (none : Vec Int) 10 =
          .ok vec1 ∧
        v_capacity vec1 = 8 ∧ (v_data vec1).length = 8 ∧ v_size vec1 = 0 + 1 ∧
        (v_data vec1)[0]? = some (some 10) ∧
        ∀ i, i < 0 → (v_data vec1)[i]? = ([] : List (Option Int))[i]?) ∧
      ((v_push_back_traced (Config.linear 4) (fun _ => true) []
          (some ⟨2, 2, [some 10, some 20], by decide, by decide⟩ : Vec Int) 30).1 =
        [HeapCall.realloc 28] ∧
      ∃ vec1, v_push_back (Config.linear 4) (fun _ => true)
          (some ⟨2, 2, [some 10, some 20], by decide, by decide⟩ : Vec Int) 30 = .ok vec1 ∧
        v_capacity vec1 = 3 ∧ (v_data vec1).length = 3 ∧ v_size vec1 = 2 + 1 ∧
        (v_data vec1)[2]? = some (some 30) ∧
        ∀ i, i < 2 → (v_data vec1)[i]? = [some 10, some 20][i]?) ∧
      ((v_push_back_traced (Config.multiplicative 4) (fun _ => false) []
          (some ⟨2, 8, [some 10, some 20, none, none, none, none, none, none],
            by decide, by decide⟩ : Vec Int) 30).1 = [] ∧
      ∃ vec1, v_push_back (Config.multiplicative 4) (fun _ => false)
          (some ⟨2, 8, [some 10, some 20, none, none, none, none, none, none],
            by decide, by decide⟩ : Vec Int) 30 = .ok vec1 ∧
        v_capacity vec1 = 8 ∧ v_size vec1 = 2 + 1 ∧
        v_data vec1 = [some 10, some 20, some 30, none, none, none, none, none]) :=
  ⟨⟨((v_push_back_grows_once (Config.multiplicative 4) (fun _ => true) [] (none : Vec Int) 10
        ⟨by decide, rfl⟩).2.1 (by decide)).1,
      ((v_push_back_grows_once (Config.multiplicative 4) (fun _ => true) [] (none : Vec Int) 10
        ⟨by decide, rfl⟩).2.1 (by decide)).2.2 (by decide) (fun _ => by decide)
        (fun _ => rfl) (by decide)⟩,
    ⟨((v_push_back_grows_once (Config.linear 4) (fun _ => true) []
        (some ⟨2, 2, [some 10, some 20], by decide, by decide⟩ : Vec Int) 30
        ⟨by decide, rfl⟩).2.1 (by decide)).1,
      ((v_push_back_grows_once (Config.linear 4) (fun _ => true) []
        (some ⟨2, 2, [some 10, some 20], by decide, by decide⟩ : Vec Int) 30
        ⟨by decide, rfl⟩).2.1 (by decide)).2.2 (by decide) (fun _ => by decide)
        (fun _ => rfl) (by decide)⟩,
    (v_push_back_grows_once (Config.multiplicative 4) (fun _ => false) []
      (some ⟨2, 8, [some 10, some 20, none, none, none, none, none, none],
        by decide, by decide⟩ : Vec Int) 30 ⟨by decide, rfl⟩).2.2 (by decide)⟩

/-- C18: in the default multiplicative configuration, with an allocator that
serves every request and no `size_t` wrap-around, pushing `n >= 1` values on
`NULL` returns a vector whose capacity is `8 * 2 ^ k` for the least `k` with
`n <= 8 * 2 ^ k`. -/
theorem capacity_after_pushes {α : Type} (esz : Nat) (heap : Heap) (xs : List α)
    (hne : 1 ≤ xs.length) (hsz : 0 < esz) (hheap : ∀ n, heap n = true)
    (hnw : (2 * xs.length + 8) * esz + HEADER_BYTES < SIZE_MOD) :
    ∃ vec k, push_all (Config.multiplicative esz) heap xs none = .ok vec ∧
      v_capacity vec = 8 * 2 ^ k ∧ xs.length ≤ 8 * 2 ^ k ∧
      ∀ j, xs.length ≤ 8 * 2 ^ j → k ≤ j := by
  obtain ⟨vec, hrun, hv, hd⟩ := push_all_doubling esz heap hsz hheap xs none []
    (by simpa using hnw) ⟨rfl, ⟨Nat.le_refl _, rfl⟩, rfl⟩ (Or.inl ⟨rfl, rfl⟩)
  simp only [List.nil_append, List.length_nil, Nat.zero_add] at hv hd
  obtain ⟨hsize, ⟨hle, -⟩, -⟩ := hv
  rcases hd with ⟨hn0, -⟩ | ⟨-, k, hk, hhalf⟩
  · omega
  · refine ⟨vec, k, hrun, hk, by omega, ?_⟩
    intro j hj
    rcases hhalf with h0 | hlt
    · omega
    · have hpow : 2 ^ k < 2 ^ (j + 1) := by
        rw [Nat.pow_succ]; omega
      have := (Nat.pow_lt_pow_iff_right (by decide : 1 < 2)).mp hpow
      omega

/-- The statement of C18 applied to the pushes of `example.c`, 10, 20, 30:
the capacity is 8. -/
theorem capacity_after_pushes_witness :
    ∃ vec k, push_all (Config.multiplicative 4) (fun _ => true) [(10 : Int), 20, 30] none =
        .ok vec ∧
      v_capacity vec = 8 * 2 ^ k ∧ 3 ≤ 8 * 2 ^ k ∧ ∀ j, 3 ≤ 8 * 2 ^ j → k ≤ j :=
  capacity_after_pushes 4 (fun _ => true) [(10 : Int), 20, 30] (by decide) (by decide)
    (fun _ => rfl) (by decide)

/-- C19, the code at the failing input: the macro call
`v_erase(v, v_size(v) - 1)` on `[10, 20, 30]` tests `2 < 3`, lowers the
count to 2, and then starts its loop at `v_size(v) - 1 = 1`, copying slot 2
over slot 1; it returns size 2 with slots `[10, 30, 30]`, while `v_pop_back`
returns size 2 with slots `[10, 20, 30]`. -/
theorem v_erase_last_index_read_twice :
    v_erase_expr (some ⟨3, 8, [some 10, some 20, some 30, none, none, none, none, none],
        by decide, by decide⟩ : Vec Int) v_back_index =
        .ok (some ⟨2, 8, [some 10, some 30, some 30, none, none, none, none, none],
          by decide, by decide⟩) ∧
      v_pop_back (some ⟨3, 8, [some 10, some 20, some 30, none, none, none, none, none],
        by decide, by decide⟩ : Vec Int) =
        some ⟨2, 8, [some 10, some 20, some 30, none, none, none, none, none],
          by decide, by decide⟩ ∧
      (v_data (some ⟨2, 8, [some 10, some 30, some 30, none, none, none, none, none],
        by decide, by decide⟩ : Vec Int))[1]? ≠
      (v_data (some ⟨2, 8, [some 10, some 20, some 30, none, none, none, none, none],
        by decide, by decide⟩ : Vec Int))[1]? :=
  ⟨rfl, rfl, by decide⟩

/-- C20: under a default configuration, `v_push_back` on a well-formed vector
(served, no `size_t` wrap-around) followed by `v_pop_back` returns a vector
with the old size and the old slots below it, and a capacity not below the
old one: equal when the push found room, larger when it had to grow. -/
theorem push_then_pop {α : Type} (cfg : Config) (heap : Heap) (vec : Vec α) (x : α)
    (hcfg : cfg.IsDefault) (hsz : 0 < cfg.sizeof_elem) (hwf : WellFormed vec)
    (hnw : NoWrap cfg vec) (hheap : GrowSucceeds cfg heap vec) :
    ∃ vec1, v_push_back cfg heap vec x = .ok vec1 ∧
      v_size (v_pop_back vec1) = v_size vec ∧
      (∀ i, i < v_size vec → (v_data (v_pop_back vec1))[i]? = (v_data vec)[i]?) ∧
      v_capacity vec ≤ v_capacity (v_pop_back vec1) ∧
      (v_size vec < v_capacity vec → v_capacity (v_pop_back vec1) = v_capacity vec) ∧
      (v_capacity vec ≤ v_size vec → v_capacity vec < v_capacity (v_pop_back vec1)) := by
  obtain ⟨b, hb, hs, hc, hd⟩ := v_push_back_ok cfg heap vec x hwf hsz hnw hheap
    (fun _ => ideal_request_gt cfg hcfg _)
  have hgt := ideal_request_gt cfg hcfg (v_capacity vec)
  have hle := hwf.1
  have hlen := hwf.2
  have hroom : v_size vec < b.capacity := by
    rw [hc]; split_ifs <;> omega
  obtain ⟨-, -, h2⟩ := pushed_slots (v_data vec) b.capacity (v_size vec) x hroom (by omega)
  rw [← hd] at h2
  obtain ⟨b1, hb1, hs1, hc1, hd1⟩ := v_pop_back_some b (by omega)
  have hcap : v_capacity vec ≤ b.capacity := by
    rw [hc]; split_ifs <;> omega
  refine ⟨some b, hb, ?_, ?_, ?_, ?_, ?_⟩
  · rw [hb1, v_size_some]; omega
  · intro i hi
    rw [hb1, v_data_some, hd1]
    exact h2 i hi
  · rw [hb1, v_capacity_some, hc1]; exact hcap
  · intro h
    rw [hb1, v_capacity_some, hc1, hc, if_neg (by omega)]
  · intro h
    rw [hb1, v_capacity_some, hc1, hc, if_pos h]
    exact hgt

/-- The statement of C20 applied to the full vector `[10, 20]` in the linear
configuration: push 30, pop. -/
theorem push_then_pop_witness :
    ∃ vec1, v_push_back (Config.linear 4) (fun _ => true)
        (some ⟨2, 2, [some 10, some 20], by decide, by decide⟩ : Vec Int) 30 = .ok vec1 ∧
      v_size (v_pop_back vec1) = 2 ∧
      (∀ i, i < 2 → (v_data (v_pop_back vec1))[i]? = [some 10, some 20][i]?) ∧
      2 ≤ v_capacity (v_pop_back vec1) ∧
      (2 < 2 → v_capacity (v_pop_back vec1) = 2) ∧
      (2 ≤ 2 → 2 < v_capacity (v_pop_back vec1)) :=
  push_then_pop (Config.linear 4) (fun _ => true)
    (some ⟨2, 2, [some 10, some 20], by decide, by decide⟩ : Vec Int) 30
    (Or.inr ⟨rfl, rfl⟩) (by decide) ⟨by decide, rfl⟩ (fun _ => by decide) (fun _ => rfl)

end CVector
